import Mathlib

/-!
Shallow embedding of the rst2mdx converter core.

Sources embedded:
* `src/src/parser.ts` — block parser (`parseRST`), directive / list / code-block /
  paragraph sub-parsers, and the inline markup processor (`processInlineMarkup`,
  `formatClassReference`).
* `src/unnamed/part_000` — the converter (`convertToMDX`, `convertNode`, per-kind
  converters).  This file is the variant of the converter whose `convertAdmonition`
  restricts the admonition kind to a whitelist, as the spec describes.
* the external `word-wrap` npm package is not part of the repository; `wrapModel`
  below is modelled from the spec (see its doc comment).

Text is represented as `List Char` (`Str`).  Each JavaScript regular expression
used by the source is hand-compiled to an explicit scanner over `List Char`;
each scanner's doc comment quotes the regex it implements.  A scanner returns its
captures together with the number of characters consumed (JS regex `lastIndex`
advance), and global `replace` walks the string one character at a time, exactly
like the JS engine: on a failed match it advances one character, on a successful
match it emits the replacement and resumes after the matched span without
rescanning the replacement.  JS `String.prototype.trim` and `\s` are modelled by
`jsIsWs` over the whitespace characters relevant here.  The only partial
operation in the pipeline is `"#".repeat(n)` for negative `n` (a JS
`RangeError`); the renderer is therefore `Option`-valued at headings.
-/

abbrev Str := List Char

/-- The backtick character (spelled via its code point). -/
def bq : Char := Char.ofNat 96

/-- The apostrophe character. -/
def apoch : Char := Char.ofNat 39

/-- The double-quote character. -/
def dqch : Char := Char.ofNat 34

/-- JS whitespace (`\s`, `trim`): space, tab, newline, carriage return,
vertical tab, form feed.  (Unicode spaces are irrelevant to this code base.) -/
def jsIsWs (c : Char) : Bool :=
  c == ' ' || c == '\t' || c == '\n' || c == '\r' || c == Char.ofNat 11 || c == Char.ofNat 12

/-- `content.split("\n")` — JS split keeps empty segments, and `"".split` gives `[""]`. -/
def splitLines : Str → List Str
  | [] => [[]]
  | c :: rest =>
    if c = '\n' then [] :: splitLines rest
    else match splitLines rest with
      | [] => [[c]]
      | l :: ls => (c :: l) :: ls

/-- Leading-whitespace strip (left half of JS `trim`). -/
def trimL (s : Str) : Str := s.dropWhile jsIsWs

/-- Trailing-whitespace strip (right half of JS `trim`). -/
def trimR (s : Str) : Str := (s.reverse.dropWhile jsIsWs).reverse

/-- JS `String.prototype.trim`. -/
def jsTrim (s : Str) : Str := trimR (trimL s)

/-- JS `toLowerCase` (ASCII, which is all this code base feeds it). -/
def lowerStr (s : Str) : Str := s.map Char.toLower

/-- JS falsy-or: `a || d` where `a` is a possibly-absent string (`undefined`
and `""` are both falsy). -/
def jsOr (o : Option Str) (d : Str) : Str :=
  match o with
  | some v => if v = [] then d else v
  | none => d

/-- JS template-literal interpolation of a possibly-absent string:
`undefined` prints as the text `undefined`. -/
def optStr (o : Option Str) : Str :=
  match o with
  | some v => v
  | none => "undefined".data

/-- Lookup in an options record (`node.options?.key`). -/
def getOpt (o : Option (List (Str × Str))) (k : Str) : Option Str :=
  match o with
  | some m => m.lookup k
  | none => none

/-- JS object assignment `options[k]= v`: update in place if present, else append. -/
def setOpt : List (Str × Str) → Str → Str → List (Str × Str)
  | [], k, v => [(k, v)]
  | (k0, v0) :: rest, k, v =>
    if k0 = k then (k0, v) :: rest else (k0, v0) :: setOpt rest k v

/-- The single node shape of parser output and converter input
(`interface RSTNode` in `src/src/parser.ts`). -/
structure RSTNode where
  type : Str
  content : Option Str := none
  children : Option (List RSTNode) := none
  options : Option (List (Str × Str)) := none

/-- JS first-occurrence string replace: `s.replace(p, r)` with a plain-string
pattern `p` (used for placeholder resolution). -/
def replaceFirst (p r : Str) : Str → Str
  | [] => if p = [] then r else []
  | c :: rest =>
    if p.isPrefixOf (c :: rest) then r ++ (c :: rest).drop p.length
    else c :: replaceFirst p r rest

/-- `\s+` runs collapsed to `-`: JS `x.replace(/\s+/g, "-")`. -/
def collapseWs : Str → Str
  | [] => []
  | c :: rest =>
    if jsIsWs c then '-' :: collapseWs (rest.dropWhile jsIsWs)
    else c :: collapseWs rest
termination_by s => s.length
decreasing_by
  · have := (rest.dropWhile_suffix jsIsWs).length_le; simp; omega
  · simp

/-- Slug used for internal anchors: `x.toLowerCase().replace(/\s+/g, "-")`. -/
def slugOf (s : Str) : Str := collapseWs (lowerStr s)

/-- The placeholder token `__LINK_<id>__`. -/
def mkPlaceholder (id : Nat) : Str := "__LINK_".data ++ (Nat.repr id).data ++ "__".data

/-- Characters allowed by the link-label class `[^\x60<>]`. -/
def extLabelOk (c : Char) : Bool := !(c == bq || c == '<' || c == '>')

/-- Matcher for the external-link regex `` \x60([^\x60<>]+)\s+<([^>]+)>\x60(__?) ``
at a position just past the opening backtick.  Returns (trimmed label, trimmed
url, characters consumed past the opening backtick).  The greedy class run backs
off exactly one trailing whitespace character to feed `\s+`, and the captured
label is trimmed by the caller's `linkText.trim()` / `url.trim()`. -/
def tryExt (rest : Str) : Option (Str × Str × Nat) :=
  let r := rest.takeWhile extLabelOk
  match rest.dropWhile extLabelOk with
  | lt :: rest2 =>
    if lt = '<' then
      match r.getLast? with
      | some w =>
        if jsIsWs w && !(r.dropLast == []) then
          let u := rest2.takeWhile (fun c => !(c == '>'))
          match rest2.dropWhile (fun c => !(c == '>')) with
          | gt :: rest3 =>
            if gt = '>' then
              if u == [] then none
              else
                match rest3 with
                | b :: rest4 =>
                  if b = bq then
                    match rest4 with
                    | c1 :: c2 :: _ =>
                      if c1 = '_' then
                        if c2 = '_' then some (jsTrim r.dropLast, jsTrim u, r.length + u.length + 5)
                        else some (jsTrim r.dropLast, jsTrim u, r.length + u.length + 4)
                      else none
                    | [c1] =>
                      if c1 = '_' then some (jsTrim r.dropLast, jsTrim u, r.length + u.length + 4)
                      else none
                    | [] => none
                  else none
                | [] => none
            else none
          | [] => none
        else none
      | none => none
    else none
  | [] => none

/-- Matcher for the bare-reference regex `` \x60([^\x60]+)\x60_ `` just past the
opening backtick.  Returns (raw label, consumed past the opening backtick). -/
def tryRef (rest : Str) : Option (Str × Nat) :=
  let t := rest.takeWhile (fun c => !(c == bq))
  if t == [] then none
  else match rest.dropWhile (fun c => !(c == bq)) with
    | b :: u :: _ => if b == bq && u == '_' then some (t, t.length + 2) else none
    | _ => none

/-- Matcher for strong emphasis `\*\*([^*]+)\*\*` just past the first `*`. -/
def tryStrong (rest : Str) : Option (Str × Nat) :=
  match rest with
  | c :: rest1 =>
    if c == '*' then
      let t := rest1.takeWhile (fun c => !(c == '*'))
      if t == [] then none
      else match rest1.dropWhile (fun c => !(c == '*')) with
        | a :: b :: _ => if a == '*' && b == '*' then some (t, t.length + 3) else none
        | _ => none
    else none
  | _ => none

/-- Matcher for emphasis `\*([^*]+)\*` just past the `*`. -/
def tryEm (rest : Str) : Option (Str × Nat) :=
  let t := rest.takeWhile (fun c => !(c == '*'))
  if t == [] then none
  else match rest.dropWhile (fun c => !(c == '*')) with
    | a :: _ => if a == '*' then some (t, t.length + 1) else none
    | _ => none

/-- Matcher for the double-backtick literal `` \x60\x60([^\x60]+)\x60\x60 ``
just past the first backtick. -/
def tryDouble (rest : Str) : Option (Str × Nat) :=
  match rest with
  | c :: rest1 =>
    if c == bq then
      let t := rest1.takeWhile (fun c => !(c == bq))
      if t == [] then none
      else match rest1.dropWhile (fun c => !(c == bq)) with
        | a :: b :: _ => if a == bq && b == bq then some (t, t.length + 3) else none
        | _ => none
    else none
  | _ => none

/-- Matcher for inline code `` \x60([^\x60_][^\x60]*)\x60 `` just past the
backtick: the first content character may be neither a backtick nor `_`. -/
def tryCode (rest : Str) : Option (Str × Nat) :=
  match rest with
  | c1 :: rest1 =>
    if c1 == bq || c1 == '_' then none
    else
      let t := rest1.takeWhile (fun c => !(c == bq))
      match rest1.dropWhile (fun c => !(c == bq)) with
      | b :: _ => if b == bq then some (c1 :: t, t.length + 2) else none
      | _ => none
  | _ => none

/-- Role-name characters: the class `[a-z-]`. -/
def roleChar (c : Char) : Bool := ('a' ≤ c && c ≤ 'z') || c == '-'

/-- Matcher for interpreted-text roles `` :([a-z-]+):\x60([^\x60]+)\x60 `` just
past the opening `:`.  Returns (role, content, consumed past the opening `:`). -/
def tryRole (rest : Str) : Option (Str × Str × Nat) :=
  let role := rest.takeWhile roleChar
  if role == [] then none
  else match rest.dropWhile roleChar with
    | c2 :: b :: rest2 =>
      if c2 == ':' && b == bq then
        let t := rest2.takeWhile (fun c => !(c == bq))
        if t == [] then none
        else match rest2.dropWhile (fun c => !(c == bq)) with
          | b2 :: _ => if b2 == bq then some (role, t, role.length + t.length + 3) else none
          | _ => none
      else none
    | _ => none

/-- JS `String.prototype.includes`: substring occurrence test. -/
def containsSub (p : Str) : Str → Bool
  | [] => p.isPrefixOf []
  | c :: rest => p.isPrefixOf (c :: rest) || containsSub p rest

/-- Case-insensitive test for the literal `class_` of `(class_[^>]+)` with the
`/i` flag. -/
def ciPrefixClass (s : Str) : Bool := "class_".data.isPrefixOf (lowerStr (s.take 6))

/-- Scanner for the lazy group of `/^(.*?)\s*<\s*(class_[^>]+)\s*>\s*(.*)$/i`:
finds the leftmost `<` that is followed (after optional whitespace) by a
case-insensitive `class_`, at least one non-`>` character, and a closing `>`.
Returns (everything before that `<`, the raw `class_...` capture).  The third
group (trailing text) is captured by the source regex but never used by the
source code. -/
def fcrFind (pre : Str) : Str → Option (Str × Str)
  | [] => none
  | c :: rest =>
    if c = '<' then
      let body := rest.dropWhile jsIsWs
      if ciPrefixClass body then
        let v := (body.drop 6).takeWhile (fun x => !(x == '>'))
        if v ≠ [] ∧ (body.drop 6).dropWhile (fun x => !(x == '>')) ≠ [] then
          some (pre.reverse, body.take 6 ++ v)
        else fcrFind (c :: pre) rest
      else fcrFind (c :: pre) rest
    else fcrFind (c :: pre) rest

/-- Helper for `stripAngle`: length up to and including the next `>` (the lazy
`.*?` cannot cross a newline). -/
def findGtLen : Str → Nat → Option Nat
  | [], _ => none
  | c :: rest, n =>
    if c = '>' then some (n + 1)
    else if c = '\n' then none
    else findGtLen rest (n + 1)

/-- `refContent.replace(/<.*?>/g, "")` — the fallback cleanup of
`formatClassReference`. -/
def stripAngle : Str → Str
  | [] => []
  | c :: rest =>
    if c = '<' then
      match findGtLen rest 0 with
      | some n => stripAngle (rest.drop n)
      | none => c :: stripAngle rest
    else c :: stripAngle rest
termination_by s => s.length
decreasing_by
  · simp [List.length_drop]; omega
  · simp
  · simp

/-- `formatClassReference` (`src/src/parser.ts`): matches the trimmed content
against `/^(.*?)\s*<\s*(class_[^>]+)\s*>\s*(.*)$/i` and builds
`[displayText](/engine/classes/<lowercased identifier>)`; on failure it logs a
diagnostic and falls back to an anchor link built from the content with
angle-bracket groups stripped.  The anchored lazy/trailing dot groups cannot
cross a newline, so a content containing a newline never matches (the program
never feeds it one). -/
def formatClassReference (refContent : Str) : Str :=
  match (if refContent.contains '\n' then none else fcrFind [] (jsTrim refContent)) with
  | some (before, cid) =>
    "[".data ++ jsTrim before ++ "](/engine/classes/".data ++ lowerStr (jsTrim cid) ++ ")".data
  | none =>
    let fallbackText := jsTrim (stripAngle refContent)
    "[".data ++ fallbackText ++ "](#".data ++ slugOf fallbackText ++ ")".data

/-- The role dispatch of `processInlineMarkup`'s interpreted-text-role pass. -/
def roleRepl (role t : Str) : Str :=
  if role = "code".data then bq :: (t ++ [bq])
  else if role = "em".data ∨ role = "emphasis".data then '*' :: (t ++ ['*'])
  else if role = "strong".data then "**".data ++ t ++ "**".data
  else if role = "literal".data then bq :: (t ++ [bq])
  else if role = "math".data then '$' :: (t ++ ['$'])
  else if role = "ref".data then
    if containsSub "<class_".data t then formatClassReference t
    else "[".data ++ t ++ "](#".data ++ slugOf t ++ ")".data
  else if role = "doc".data then "[".data ++ t ++ "](".data ++ t ++ ")".data
  else "<span className=".data ++ dqch :: role ++ dqch :: ">".data ++ t ++ "</span>".data

/-- Pass 1 of `processInlineMarkup`: protect external links
`` \x60label <url>\x60_ `` behind placeholders.  Returns (text, placeholder
map entries in insertion order, next placeholder id). -/
def passExt : Str → Nat → Str × List (Str × Str) × Nat
  | [], id => ([], [], id)
  | c :: rest, id =>
    if c == bq then
      match tryExt rest with
      | some (label, url, n) =>
        let ph := mkPlaceholder id
        let r := passExt (rest.drop n) (id + 1)
        (ph ++ r.1, (ph, "[".data ++ label ++ "](".data ++ url ++ ")".data) :: r.2.1, r.2.2)
      | none =>
        let r := passExt rest id
        (c :: r.1, r.2.1, r.2.2)
    else
      let r := passExt rest id
      (c :: r.1, r.2.1, r.2.2)
termination_by s _ => s.length
decreasing_by
  · simp [List.length_drop]; omega
  · simp
  · simp

/-- Pass 2 of `processInlineMarkup`: protect bare reference links
`` \x60label\x60_ `` behind placeholders mapping to `[label](#slug)`. -/
def passRef : Str → Nat → Str × List (Str × Str) × Nat
  | [], id => ([], [], id)
  | c :: rest, id =>
    if c == bq then
      match tryRef rest with
      | some (t, n) =>
        let ph := mkPlaceholder id
        let r := passRef (rest.drop n) (id + 1)
        (ph ++ r.1,
         (ph, "[".data ++ jsTrim t ++ "](#".data ++ slugOf (jsTrim t) ++ ")".data) :: r.2.1,
         r.2.2)
      | none =>
        let r := passRef rest id
        (c :: r.1, r.2.1, r.2.2)
    else
      let r := passRef rest id
      (c :: r.1, r.2.1, r.2.2)
termination_by s _ => s.length
decreasing_by
  · simp [List.length_drop]; omega
  · simp
  · simp

/-- Pass 3: `replace(/\*\*([^*]+)\*\*/g, "**$1**")`. -/
def passStrong : Str → Str
  | [] => []
  | c :: rest =>
    if c == '*' then
      match tryStrong rest with
      | some (t, n) => "**".data ++ t ++ "**".data ++ passStrong (rest.drop n)
      | none => c :: passStrong rest
    else c :: passStrong rest
termination_by s => s.length
decreasing_by
  · simp [List.length_drop]; omega
  · simp
  · simp

/-- Pass 4: `replace(/\*([^*]+)\*/g, "*$1*")`. -/
def passEm : Str → Str
  | [] => []
  | c :: rest =>
    if c == '*' then
      match tryEm rest with
      | some (t, n) => '*' :: (t ++ '*' :: passEm (rest.drop n))
      | none => c :: passEm rest
    else c :: passEm rest
termination_by s => s.length
decreasing_by
  · simp [List.length_drop]; omega
  · simp
  · simp

/-- Pass 5: `` replace(/\x60\x60([^\x60]+)\x60\x60/g, "\x60$1\x60") `` —
double-backtick literals become single-backtick code spans. -/
def passDouble : Str → Str
  | [] => []
  | c :: rest =>
    if c == bq then
      match tryDouble rest with
      | some (t, n) => bq :: (t ++ bq :: passDouble (rest.drop n))
      | none => c :: passDouble rest
    else c :: passDouble rest
termination_by s => s.length
decreasing_by
  · simp [List.length_drop]; omega
  · simp
  · simp

/-- Pass 6: `` replace(/\x60([^\x60_][^\x60]*)\x60/g, "\x60$1\x60") `` —
inline code, excluding spans that begin with `_` (placeholder protection). -/
def passCode : Str → Str
  | [] => []
  | c :: rest =>
    if c == bq then
      match tryCode rest with
      | some (t, n) => bq :: (t ++ bq :: passCode (rest.drop n))
      | none => c :: passCode rest
    else c :: passCode rest
termination_by s => s.length
decreasing_by
  · simp [List.length_drop]; omega
  · simp
  · simp

/-- Pass 7: `` replace(/:([a-z-]+):\x60([^\x60]+)\x60/g, ...) `` with the role
dispatch. -/
def passRoles : Str → Str
  | [] => []
  | c :: rest =>
    if c == ':' then
      match tryRole rest with
      | some (role, t, n) => roleRepl role t ++ passRoles (rest.drop n)
      | none => c :: passRoles rest
    else c :: passRoles rest
termination_by s => s.length
decreasing_by
  · simp [List.length_drop]; omega
  · simp
  · simp

/-- `processInlineMarkup` (`src/src/parser.ts`): protect link spans behind
placeholders, run the emphasis/code/role substitutions, then resolve the
placeholders in insertion order (JS `Map` preserves it) with first-occurrence
`replace`. -/
def processInlineMarkup (text : Str) : Str :=
  let r1 := passExt text 0
  let r2 := passRef r1.1 r1.2.2
  let t7 := passRoles (passCode (passDouble (passEm (passStrong r2.1))))
  (r1.2.1 ++ r2.2.1).foldl (fun acc pr => replaceFirst pr.1 pr.2 acc) t7

/-- `\w` — the class `[A-Za-z0-9_]`. -/
def wordChar (c : Char) : Bool :=
  ('a' ≤ c && c ≤ 'z') || ('A' ≤ c && c ≤ 'Z') || c.isDigit || c == '_'

/-- Matcher for the directive regex `^\.\.\s+(\w+)::(.*)` on a trimmed line.
Returns (name, argument-before-trim).  Note `\w` excludes `-`, so hyphenated
directive names such as `code-block` never match. -/
def directiveMatch (line : Str) : Option (Str × Str) :=
  match line with
  | '.' :: '.' :: rest =>
    if rest.takeWhile jsIsWs = [] then none
    else
      let afterWs := rest.dropWhile jsIsWs
      let name := afterWs.takeWhile wordChar
      if name = [] then none
      else match afterWs.dropWhile wordChar with
        | ':' :: ':' :: arg => some (name, arg)
        | _ => none
  | _ => none

/-- The class `[a-z0-9_]` of reference-target labels. -/
def refLabelChar (c : Char) : Bool := ('a' ≤ c && c ≤ 'z') || c.isDigit || c == '_'

/-- Test for the leading reference-target pattern `^\.\.\s+_[a-z0-9_]+:`
(unanchored at the right, so a prefix match suffices, as with JS `match`). -/
def refTargetTest (line : Str) : Bool :=
  match line with
  | '.' :: '.' :: rest =>
    !(rest.takeWhile jsIsWs).isEmpty &&
      (match rest.dropWhile jsIsWs with
       | '_' :: r2 =>
         !(r2.takeWhile refLabelChar).isEmpty &&
           (match r2.dropWhile refLabelChar with
            | ':' :: _ => true
            | _ => false)
       | _ => false)
  | _ => false

/-- The underline character class of `/^[=\-\x60~:'"^_*+#<>]{3,}$/`. -/
def underlineChar (c : Char) : Bool :=
  c == '=' || c == '-' || c == bq || c == '~' || c == ':' || c == apoch || c == dqch ||
  c == '^' || c == '_' || c == '*' || c == '+' || c == '#' || c == '<' || c == '>'

/-- `/^[=\-\x60~:'"^_*+#<>]{3,}$/.test(underline)`. -/
def underlineTest (s : Str) : Bool := decide (s.length ≥ 3) && s.all underlineChar

/-- `getHeaderLevel` (`src/src/parser.ts`): underline character to heading
level, defaulting to 2. -/
def getHeaderLevel (c : Char) : Nat :=
  if c = '=' then 1
  else if c = '-' then 2
  else if c = bq then 3
  else if c = ':' then 4
  else if c = apoch then 5
  else if c = dqch then 6
  else if c = '~' then 3
  else if c = '*' then 4
  else if c = '+' then 5
  else if c = '^' then 6
  else 2

/-- The two list-marker regexes handed to `parseList`:
`/^[*\-+]\s/` (bullet) and `/^\d+\.\s/` (enumerated). -/
inductive Pat where
  | bullet
  | enum
deriving DecidableEq

/-- `line.match(pattern)` for the two marker patterns (`\s` matches a single
whitespace character). -/
def patTest : Pat → Str → Bool
  | .bullet, c :: d :: _ => (c == '*' || c == '-' || c == '+') && jsIsWs d
  | .bullet, _ => false
  | .enum, s =>
    !(s.takeWhile Char.isDigit).isEmpty &&
      (match s.dropWhile Char.isDigit with
       | '.' :: d :: _ => jsIsWs d
       | _ => false)

/-- `line.replace(pattern, "")`: drop the matched marker prefix (a no-op when
the line does not match). -/
def patStrip : Pat → Str → Str
  | .bullet, s => if patTest .bullet s then s.drop 2 else s
  | .enum, s =>
    if patTest .enum s then s.drop ((s.takeWhile Char.isDigit).length + 2) else s

/-- Number of leading lines whose trim is empty (the `nextNonEmpty` lookahead). -/
def countBlanks : List Str → Nat
  | [] => 0
  | l :: rest => if jsTrim l = [] then countBlanks rest + 1 else 0

/-- Termination helper for `parseListGo`: the blank-line lookahead only
continues the list strictly further down the array, because the line that
failed the marker test cannot be the line that passes it. -/
theorem parseListGo_dec {pat : Pat} {l : Str} {ls : List Str}
    (hm : ¬patTest pat (jsTrim l) = true)
    (hj : (decide (countBlanks (l :: ls) < (l :: ls).length) &&
      patTest pat (jsTrim ((l :: ls).getD (countBlanks (l :: ls)) []))) = true) :
    (List.drop (countBlanks (l :: ls)) (l :: ls)).length < (l :: ls).length := by
  rcases Nat.eq_zero_or_pos (countBlanks (l :: ls)) with h0 | h0
  · rw [h0] at hj; simp at hj; exact absurd hj hm
  · simp only [List.length_drop, List.length_cons]; omega

/-- The item loop of `parseList` (`src/src/parser.ts`), working on the suffix of
the line array from the current position; returns (items, lines consumed).
An empty trimmed line never matches either marker pattern, so the source's
`line === "" || !line.match(pattern)` test is exactly `!line.match(pattern)`. -/
def parseListGo (pat : Pat) : List Str → List RSTNode × Nat
  | [] => ([], 0)
  | l :: rest =>
    if hm : patTest pat (jsTrim l) then
      let r := parseListGo pat rest
      (⟨"listItem".data, some (processInlineMarkup (jsTrim (patStrip pat (jsTrim l)))),
        none, none⟩ :: r.1,
       r.2 + 1)
    else
      let j := countBlanks (l :: rest)
      if hj : decide (j < (l :: rest).length) && patTest pat (jsTrim ((l :: rest).getD j [])) then
        let r := parseListGo pat ((l :: rest).drop j)
        (r.1, j + r.2)
      else ([], 0)
termination_by s => s.length
decreasing_by
  · simp
  · exact parseListGo_dec hm hj

/-- `parseList` on a line-array suffix: wraps the collected items in the list
container node (ordered iff the pattern was the enumerated one, mirroring
`pattern.toString().includes("\\d+")`). -/
def parseListS (pat : Pat) (s : List Str) : RSTNode × Nat :=
  let r := parseListGo pat s
  (⟨(if pat = .enum then "orderedList".data else "unorderedList".data), none, some r.1, none⟩,
   r.2)

/-- The indentation-discovery loop of `parseDirective`: skip blank lines; at the
first non-blank line either record its leading-whitespace run length (content
starts there) or stop.  Returns (found indentation, lines skipped). -/
def findIndent : List Str → Option Nat × Nat
  | [] => (none, 0)
  | l :: rest =>
    if jsTrim l = [] then
      let r := findIndent rest
      (r.1, r.2 + 1)
    else
      if (l.takeWhile jsIsWs).length > 0 then (some (l.takeWhile jsIsWs).length, 0)
      else (none, 0)

/-- The content-collection loop of `parseDirective`: consume lines that are
blank (kept as bare newlines, but only when the next non-blank line still meets
the indentation threshold, tested with `" ".repeat(indentation)`) or carry the
threshold indentation (stripped).  Returns (content, lines consumed). -/
def collectContent (ind : Nat) : List Str → Str × Nat
  | [] => ([], 0)
  | l :: rest =>
    if jsTrim l = [] then
      match rest.dropWhile (fun x => jsTrim x == []) with
      | nxt :: _ =>
        if (List.replicate ind ' ').isPrefixOf nxt then
          let r := collectContent ind rest
          ('\n' :: r.1, r.2 + 1)
        else ([], 0)
      | [] =>
        let r := collectContent ind rest
        ('\n' :: r.1, r.2 + 1)
    else
      if (List.replicate ind ' ').isPrefixOf l then
        let r := collectContent ind rest
        (l.drop ind ++ '\n' :: r.1, r.2 + 1)
      else ([], 0)

/-- One `:key: value` line of an image directive body:
`line.match(/^:([^:]+):\s*(.*)/)`. -/
def optLineMatch (l : Str) : Option (Str × Str) :=
  match l with
  | ':' :: r =>
    let key := r.takeWhile (fun c => !(c == ':'))
    if key = [] then none
    else match r.dropWhile (fun c => !(c == ':')) with
      | ':' :: v => some (key, v.dropWhile jsIsWs)
      | _ => none
  | _ => none

/-- `parseOptions` (`src/src/parser.ts`): field-list options of an image body. -/
def parseOptions (content : Str) : List (Str × Str) :=
  (splitLines (jsTrim content)).foldl
    (fun opts l =>
      match optLineMatch l with
      | some (k, v) => setOpt opts (jsTrim k) (jsTrim v)
      | none => opts) []

/-- `parseDirective` (`src/src/parser.ts`) on a line-array suffix whose head is
the directive line; returns (node, lines consumed). -/
def parseDirectiveS : List Str → RSTNode × Nat
  | [] => (⟨"paragraph".data, some [], none, none⟩, 1)
  | l :: rest =>
    match directiveMatch (jsTrim l) with
    | none => (⟨"paragraph".data, some (jsTrim l), none, none⟩, 1)
    | some (name, argRaw) =>
      let arg := jsTrim argRaw
      match findIndent rest with
      | (none, k) =>
        if name = "image".data then (⟨"image".data, some arg, none, some []⟩, 1 + k)
        else
          (⟨(if name = "image".data then "image".data else "directive".data), some [], none,
            (if name = "image".data then some []
             else some [("name".data, name), ("argument".data, arg)])⟩,
           1 + k)
      | (some ind, k) =>
        let r := collectContent ind (rest.drop k)
        if name = "code-block".data ∨ name = "code".data then
          (⟨"codeBlock".data, some (jsTrim r.1), none,
            some [("language".data, if arg = [] then "text".data else arg)]⟩, 1 + k + r.2)
        else if name = "image".data then
          (⟨"image".data, some arg, none, some (parseOptions r.1)⟩, 1 + k + r.2)
        else if name = "note".data ∨ name = "warning".data ∨ name = "danger".data ∨
            name = "tip".data then
          (⟨"admonition".data, some (jsTrim r.1), none, some [("kind".data, name)]⟩, 1 + k + r.2)
        else
          (⟨"directive".data, some (jsTrim r.1), none,
            some [("name".data, name), ("argument".data, arg)]⟩, 1 + k + r.2)

/-- The collection loop of `parseCodeBlock`: lines indented by four spaces (kept
with the indentation stripped) or blank (kept as bare newlines). -/
def codeCollect : List Str → Str × Nat
  | [] => ([], 0)
  | l :: rest =>
    if "    ".data.isPrefixOf l || jsTrim l == [] then
      let r := codeCollect rest
      ((if !(jsTrim l == []) then l.drop 4 ++ ['\n'] else ['\n']) ++ r.1, r.2 + 1)
    else ([], 0)

/-- `parseCodeBlock` (`src/src/parser.ts`) on a line-array suffix. -/
def parseCodeBlockS (s : List Str) : RSTNode × Nat :=
  let r := codeCollect s
  (⟨"codeBlock".data, some (jsTrim r.1), none, some [("language".data, "text".data)]⟩, r.2)

/-- The collection loop of `parseParagraph`: trimmed non-blank lines. -/
def paraCollect : List Str → List Str × Nat
  | [] => ([], 0)
  | l :: rest =>
    if jsTrim l = [] then ([], 0)
    else
      let r := paraCollect rest
      (jsTrim l :: r.1, r.2 + 1)

/-- `parseParagraph` (`src/src/parser.ts`) on a line-array suffix: joins the
collected lines with single spaces, applies inline processing, and skips one
extra line (`nextLine: i + 1`). -/
def parseParagraphS (s : List Str) : RSTNode × Nat :=
  let r := paraCollect s
  (⟨"paragraph".data, some (processInlineMarkup (List.intercalate [' '] r.1)), none, none⟩,
   r.2 + 1)

/-- The head of a `dropWhile` result fails the predicate. -/
theorem head_dropWhile_false {p : Char → Bool} {l : Str} {c : Char} {t : Str}
    (h : l.dropWhile p = c :: t) : p c = false := by
  induction l with
  | nil => simp [List.dropWhile] at h
  | cons a as ih =>
    rw [List.dropWhile] at h
    by_cases hpa : p a
    · rw [hpa] at h; exact ih h
    · simp [hpa] at h; rw [← h.1]; simpa using hpa

/-- `dropWhile` distributes over appending one predicate-failing element. -/
theorem dropWhile_append_single {p : Char → Bool} {c : Char} (hc : p c = false) :
    ∀ xs : Str, (xs ++ [c]).dropWhile p = xs.dropWhile p ++ [c]
  | [] => by simp [List.dropWhile, hc]
  | a :: as => by
    by_cases hpa : p a
    · simp only [List.cons_append, List.dropWhile, hpa]
      exact dropWhile_append_single hc as
    · simp [List.dropWhile, hpa]

/-- A trimmed string is empty or begins with a non-whitespace character. -/
theorem trim_head_not_ws (l : Str) :
    jsTrim l = [] ∨ ∃ c t, jsTrim l = c :: t ∧ jsIsWs c = false := by
  unfold jsTrim
  rcases htl : trimL l with _ | ⟨c, t⟩
  · left; simp [trimR]
  · have hc : jsIsWs c = false := head_dropWhile_false htl
    right
    refine ⟨c, (t.reverse.dropWhile jsIsWs).reverse, ?_, hc⟩
    unfold trimR
    rw [show (c :: t).reverse = t.reverse ++ [c] by simp,
      dropWhile_append_single hc, List.reverse_append]
    simp

/-- The dead-branch lemma: a trimmed line can never start with four spaces
(`line` in the main parser loop is `lines[i].trim()`). -/
theorem fourSpaces_not_in_trim (l : Str) :
    "    ".data.isPrefixOf (jsTrim l) = false := by
  rcases trim_head_not_ws l with h | ⟨c, t, h, hc⟩ <;> rw [h]
  · decide
  · show List.isPrefixOf (' ' :: "   ".data) (c :: t) = false
    rw [List.isPrefixOf]
    have : (' ' == c) = false := by
      cases hsp : ' ' == c
      · rfl
      · exfalso; rw [show c = ' ' from (beq_iff_eq.mp hsp).symm] at hc; simp [jsIsWs] at hc
    simp [this]

/-- `parseDirectiveS` always consumes at least one line. -/
theorem parseDirectiveS_pos (s : List Str) : 1 ≤ (parseDirectiveS s).2 := by
  unfold parseDirectiveS
  repeat' split
  all_goals (try simp)
  all_goals omega

/-- `parseListGo` consumes at least one line when the first line matches. -/
theorem parseListGo_head_pos {pat : Pat} {l : Str} (rest : List Str)
    (h : patTest pat (jsTrim l) = true) : 1 ≤ (parseListGo pat (l :: rest)).2 := by
  rw [parseListGo]
  simp [h]

/-- `parseListS` consumes at least one line when the first line matches. -/
theorem parseListS_head_pos {pat : Pat} {l : Str} (rest : List Str)
    (h : patTest pat (jsTrim l) = true) : 1 ≤ (parseListS pat (l :: rest)).2 := by
  unfold parseListS
  simpa using parseListGo_head_pos rest h

/-- `parseParagraphS` always consumes at least one line. -/
theorem parseParagraphS_pos (s : List Str) : 1 ≤ (parseParagraphS s).2 := by
  simp [parseParagraphS]

/-- `codeCollect` consumes at least one line when the first line is indented or
blank. -/
theorem codeCollect_head_pos {l : Str} (rest : List Str)
    (h : ("    ".data.isPrefixOf l || (jsTrim l == [])) = true) :
    1 ≤ (codeCollect (l :: rest)).2 := by
  unfold codeCollect
  simp at h
  simp [h]

/-- Heading detection in the main loop: the next line exists and its trim
passes `underlineTest`. -/
def hasUnderline : List Str → Bool
  | nxt :: _ => underlineTest (jsTrim nxt)
  | [] => false

/-- `getHeaderLevel(lines[i + 1].trim()[0])`. -/
def levelOfUnderline : List Str → Nat
  | nxt :: _ => getHeaderLevel ((jsTrim nxt).headD ' ')
  | [] => 2

/-- `i > 0 && lines[i - 1].trim() === ""` carried as explicit previous-line
state (`none` at the start of the array). -/
def isBlankOpt : Option Str → Bool
  | some p => jsTrim p == []
  | none => false

/-- Previous-line state after consuming `k` lines of `s`. -/
def prevAfter (s : List Str) (k : Nat) (prev : Option Str) : Option Str :=
  match (s.take k).getLast? with
  | some l => some l
  | none => prev

/-- The main loop of `parseRST` (`src/src/parser.ts`), on the suffix of the
line array, carrying the previous line for the literal-block lookback.  The
recognizers run in source order: blank skip, section heading, directive,
bullet list, enumerated list, literal block, paragraph. -/
def parseLoop (prev : Option Str) (s : List Str) : List RSTNode :=
  match s with
  | [] => []
  | l :: rest =>
    if jsTrim l = [] then parseLoop (some l) rest
    else if hu : hasUnderline rest then
      ⟨"heading".data, some (jsTrim l), none,
        some [("level".data, (Nat.repr (levelOfUnderline rest)).data)]⟩ ::
        parseLoop (prevAfter (l :: rest) 2 prev) ((l :: rest).drop 2)
    else if ".. ".data.isPrefixOf (jsTrim l) && containsSub "::".data (jsTrim l) then
      (parseDirectiveS (l :: rest)).1 ::
        parseLoop (prevAfter (l :: rest) (parseDirectiveS (l :: rest)).2 prev)
          ((l :: rest).drop (parseDirectiveS (l :: rest)).2)
    else if hb : patTest .bullet (jsTrim l) then
      (parseListS .bullet (l :: rest)).1 ::
        parseLoop (prevAfter (l :: rest) (parseListS .bullet (l :: rest)).2 prev)
          ((l :: rest).drop (parseListS .bullet (l :: rest)).2)
    else if he : patTest .enum (jsTrim l) then
      (parseListS .enum (l :: rest)).1 ::
        parseLoop (prevAfter (l :: rest) (parseListS .enum (l :: rest)).2 prev)
          ((l :: rest).drop (parseListS .enum (l :: rest)).2)
    else if hlit : isBlankOpt prev && "    ".data.isPrefixOf (jsTrim l) then
      (parseCodeBlockS (l :: rest)).1 ::
        parseLoop (prevAfter (l :: rest) (parseCodeBlockS (l :: rest)).2 prev)
          ((l :: rest).drop (parseCodeBlockS (l :: rest)).2)
    else
      (parseParagraphS (l :: rest)).1 ::
        parseLoop (prevAfter (l :: rest) (parseParagraphS (l :: rest)).2 prev)
          ((l :: rest).drop (parseParagraphS (l :: rest)).2)
termination_by s.length
decreasing_by
  · simp
  · rcases hr : ‹List Str› with _ | ⟨nxt, rest2⟩
    · rw [hr] at hu; simp [hasUnderline] at hu
    · simp [hr]; omega
  · have := parseDirectiveS_pos (l :: ‹List Str›)
    simp only [List.length_drop, List.length_cons]
    omega
  · have := parseListS_head_pos ‹List Str› hb
    simp only [List.length_drop, List.length_cons]
    omega
  · have := parseListS_head_pos ‹List Str› he
    simp only [List.length_drop, List.length_cons]
    omega
  · exfalso
    have h4 := fourSpaces_not_in_trim l
    simp [h4] at hlit
  · have := parseParagraphS_pos (l :: ‹List Str›)
    simp only [List.length_drop, List.length_cons]
    omega

/-- The leading skip of `parseRST`: blank lines and reference-target lines
(`.. _label:`) before the first real content. -/
def skipLeadingCount : List Str → Nat
  | [] => 0
  | l :: rest =>
    if jsTrim l = [] || refTargetTest (jsTrim l) then skipLeadingCount rest + 1 else 0

/-- `parseRST` (`src/src/parser.ts`): split on newlines, skip leading blank and
reference-target lines, then run the main recognizer loop. -/
def parseRST (content : Str) : List RSTNode :=
  parseLoop
    (prevAfter (splitLines content) (skipLeadingCount (splitLines content)) none)
    ((splitLines content).drop (skipLeadingCount (splitLines content)))

/-- `parseDirective` with the source's index-based signature
(`{ node, nextLine }`). -/
def parseDirective (lines : List Str) (startLine : Nat) : RSTNode × Nat :=
  ((parseDirectiveS (lines.drop startLine)).1,
   startLine + (parseDirectiveS (lines.drop startLine)).2)

/-- `parseList` with the source's index-based signature. -/
def parseList (lines : List Str) (startLine : Nat) (pat : Pat) : RSTNode × Nat :=
  ((parseListS pat (lines.drop startLine)).1,
   startLine + (parseListS pat (lines.drop startLine)).2)

/-- `parseCodeBlock` with the source's index-based signature. -/
def parseCodeBlock (lines : List Str) (startLine : Nat) : RSTNode × Nat :=
  ((parseCodeBlockS (lines.drop startLine)).1,
   startLine + (parseCodeBlockS (lines.drop startLine)).2)

/-- `parseParagraph` with the source's index-based signature. -/
def parseParagraph (lines : List Str) (startLine : Nat) : RSTNode × Nat :=
  ((parseParagraphS (lines.drop startLine)).1,
   startLine + (parseParagraphS (lines.drop startLine)).2)

/-- Modelled from the spec: the external `word-wrap` package (absent from the
repository) as the spec describes it — "Paragraph / ListItem → raw content,
optionally reflowed to a configured maximum line width", treating the text as a
single flowing block: split into whitespace-separated words, then greedily fill
lines up to the width.  Helper: split into maximal non-whitespace runs. -/
def splitWsAux : Str → Str → List Str
  | [], cur => if cur = [] then [] else [cur.reverse]
  | c :: rest, cur =>
    if jsIsWs c then
      (if cur = [] then splitWsAux rest [] else cur.reverse :: splitWsAux rest [])
    else splitWsAux rest (c :: cur)

/-- Length of a line made of space-joined words. -/
def lineLen (g : List Str) : Nat := (g.map List.length).sum + (g.length - 1)

/-- Modelled from the spec: greedy line filling at width `w` — a word joins the
current line when the joined length stays within `w`, otherwise it starts a new
line (an overlong word stands alone). -/
def greedyGroups (w : Nat) : List Str → List Str → List (List Str)
  | [], cur => if cur = [] then [] else [cur]
  | wd :: rest, cur =>
    if cur = [] then greedyGroups w rest [wd]
    else if lineLen cur + 1 + wd.length ≤ w then greedyGroups w rest (cur ++ [wd])
    else cur :: greedyGroups w rest [wd]

/-- Modelled from the spec: `wrap(content, { width: w, indent: "" })` — reflow
to lines of at most `w` characters (overlong single words excepted), joined by
newlines. -/
def wrapModel (w : Nat) (s : Str) : Str :=
  List.intercalate ['\n'] ((greedyGroups w (splitWsAux s []) []).map (List.intercalate [' ']))

/-- Digit-run value for `jsParseInt`. -/
def digitsVal (r : Str) : Option Int :=
  if r.takeWhile Char.isDigit = [] then none
  else some (Int.ofNat
    ((r.takeWhile Char.isDigit).foldl (fun acc c => acc * 10 + (c.toNat - '0'.toNat)) 0))

/-- JS `Number.parseInt(s, 10)`: skip whitespace, optional sign, then a leading
digit run; `none` models `NaN`. -/
def jsParseInt (s : Str) : Option Int :=
  match s.dropWhile jsIsWs with
  | '-' :: r => (digitsVal r).map (fun n => -n)
  | '+' :: r => digitsVal r
  | r => digitsVal r

/-- The admonition kind whitelist of `convertAdmonition` (`src/unnamed/part_000`). -/
def validKinds : List Str := ["note".data, "warning".data, "danger".data, "tip".data]

/-- The effective kind used by `convertAdmonition`: `options?.kind || "note"`,
coerced back to `"note"` when outside the whitelist. -/
def admonitionKind (n : RSTNode) : Str :=
  let rawKind := jsOr (getOpt n.options "kind".data) "note".data
  if rawKind ∈ validKinds then rawKind else "note".data

/-- `convertAdmonition` (`src/unnamed/part_000`): a `:::kind` fenced container
around the (possibly reflowed) content. -/
def convertAdmonition (n : RSTNode) (w : Int) : Str :=
  ":::".data ++ admonitionKind n ++ "\n\n".data ++
    (if w > 0 then wrapModel w.toNat (jsOr n.content []) else jsOr n.content []) ++
    "\n\n:::".data

/-- `convertHeading`: `"#".repeat(parseInt(options?.level || "2"))` plus the
content.  `parseInt` returning `NaN` makes `repeat` coerce to zero; a negative
value makes it throw `RangeError`, modelled as `none`. -/
def convertHeading (n : RSTNode) : Option Str :=
  match jsParseInt (jsOr (getOpt n.options "level".data) "2".data) with
  | none => some (' ' :: optStr n.content)
  | some k =>
    if k < 0 then none
    else some (List.replicate k.toNat '#' ++ ' ' :: optStr n.content)

/-- `convertParagraph`: content, reflowed when the width is positive. -/
def convertParagraph (n : RSTNode) (w : Int) : Str :=
  if w > 0 then wrapModel w.toNat (jsOr n.content []) else jsOr n.content []

/-- `convertListItem`: the raw content. -/
def convertListItem (n : RSTNode) : Str := jsOr n.content []

/-- `convertCodeBlock`: a fenced block tagged with `options?.language || ""`. -/
def convertCodeBlock (n : RSTNode) : Str :=
  "```".data ++ jsOr (getOpt n.options "language".data) [] ++ "\n".data ++
    jsOr n.content [] ++ "\n```".data

/-- Split on a separator character, JS `split` style (empty segments kept). -/
def splitOnChar (sep : Char) : Str → List Str
  | [] => [[]]
  | c :: rest =>
    if c = sep then [] :: splitOnChar sep rest
    else match splitOnChar sep rest with
      | [] => [[c]]
      | l :: ls => (c :: l) :: ls

/-- `filename.replace(/\.[^/.]+$/, "")`: drop a final extension — a last dot
followed by a nonempty run free of `/` and `.`. -/
def stripExt (f : Str) : Str :=
  match h : (f.reverse.takeWhile (fun c => !(c == '.') && !(c == '/'))) with
  | [] => f
  | ext =>
    match f.reverse.drop ext.length with
    | '.' :: _ => (f.reverse.drop (ext.length + 1)).reverse
    | _ => f

/-- `convertImage`: `![alt](src)`, deriving the alt text from the file name
when absent (extension stripped, `_`/`-` to spaces, first letter upper-cased). -/
def convertImage (n : RSTNode) : Str :=
  let src := jsOr n.content []
  let alt0 := jsOr (getOpt n.options "alt".data) []
  let alt :=
    if alt0 = [] then
      let filename := ((splitOnChar '/' src).getLast?).getD []
      let cleaned := (stripExt filename).map (fun c => if c == '_' || c == '-' then ' ' else c)
      match cleaned with
      | [] => []
      | c :: t => c.toUpper :: t
    else alt0
  "![".data ++ alt ++ "](".data ++ src ++ ")".data

/-- `convertDirective`: `include` and `toctree` collapse to inert comments; any
other directive is echoed as a comment block. -/
def convertDirective (n : RSTNode) (w : Int) : Str :=
  let name := jsOr (getOpt n.options "name".data) []
  let argument := jsOr (getOpt n.options "argument".data) []
  let wrapped :=
    if w > 0 then wrapModel w.toNat (jsOr n.content []) else jsOr n.content []
  if name = "include".data then "\x7b/* Include: ".data ++ argument ++ " */\x7d".data
  else if name = "toctree".data then "\x7b/* Table of Contents */\x7d".data
  else
    "\x7b/*\nDirective: ".data ++ name ++ "\nArgument: ".data ++ argument ++
      "\nContent:\n".data ++ wrapped ++ "\n*/\x7d".data

mutual

/-- `convertNode` (`src/unnamed/part_000`): dispatch on the node kind string;
the default branch warns (`console.warn`) and passes the raw content through.
Returns the rendered text together with the emitted diagnostics; `none` models
the `RangeError` reachable through `convertHeading`. -/
def convertNode (n : RSTNode) (w : Int) : Option (Str × List Str) :=
  if n.type = "heading".data then (convertHeading n).map (fun s => (s, []))
  else if n.type = "paragraph".data then some (convertParagraph n w, [])
  else if n.type = "unorderedList".data then
    match h : n.children with
    | none => some ([], [])
    | some cs =>
      (convertEach cs w).map (fun rs =>
        (List.intercalate ['\n'] (rs.map (fun r => "- ".data ++ r.1)),
         rs.foldl (fun acc r => acc ++ r.2) []))
  else if n.type = "orderedList".data then
    match h : n.children with
    | none => some ([], [])
    | some cs =>
      (convertEach cs w).map (fun rs =>
        (List.intercalate ['\n']
          (rs.enum.map (fun p => (Nat.repr (p.1 + 1)).data ++ ". ".data ++ p.2.1)),
         rs.foldl (fun acc r => acc ++ r.2) []))
  else if n.type = "listItem".data then some (convertListItem n, [])
  else if n.type = "codeBlock".data then some (convertCodeBlock n, [])
  else if n.type = "image".data then some (convertImage n, [])
  else if n.type = "admonition".data then some (convertAdmonition n w, [])
  else if n.type = "directive".data then some (convertDirective n w, [])
  else
    some ((if w > 0 then wrapModel w.toNat (jsOr n.content []) else jsOr n.content []),
      ["Unknown node type: ".data ++ n.type])
termination_by sizeOf n
decreasing_by
  all_goals cases n
  all_goals first | (simp_all; omega) | simp_all

/-- The children traversal of the two list converters. -/
def convertEach (l : List RSTNode) (w : Int) : Option (List (Str × List Str)) :=
  match l with
  | [] => some []
  | c :: cs =>
    match convertNode c w with
    | none => none
    | some r => (convertEach cs w).map (fun rs => r :: rs)
termination_by sizeOf l
decreasing_by
  all_goals first | (simp; omega) | simp | omega

end

/-- The accumulator loop of `convertToMDX`: the first heading becomes the
frontmatter block and is consumed; everything else renders through
`convertNode` followed by a blank line. -/
def convertGo (w : Int) : List RSTNode → Bool → Str → List Str → Option (Str × List Str)
  | [], _, acc, ws => some (jsTrim acc, ws)
  | n :: rest, flag, acc, ws =>
    if n.type = "heading".data ∧ flag = false then
      convertGo w rest true
        (acc ++ "---\ntitle: ".data ++ optStr n.content ++ "\n---\n\n".data) ws
    else
      match convertNode n w with
      | none => none
      | some r => convertGo w rest flag (acc ++ r.1 ++ "\n\n".data) (ws ++ r.2)

/-- `convertToMDX` (`src/unnamed/part_000`): fold the nodes with the
first-heading flag, then trim the result. -/
def convertToMDX (nodes : List RSTNode) (w : Int) : Option (Str × List Str) :=
  convertGo w nodes false [] []

/-- C1: the claim says a line indented by at least 4 spaces right after a blank
line is recognized as the start of a literal block and becomes a CodeBlock
node.  The code tests `line.startsWith("    ")` on the *trimmed* line, which is
never true, so the literal-block recognizer is unreachable: the guard of the
literal-block branch is false for every line, and the claim's own example input
parses into two paragraph nodes instead of a code block. -/
theorem claim_C1_literal_block_dead :
    (∀ l : Str, ("    ".data.isPrefixOf (jsTrim l)) = false)
    ∧ parseRST "para\n\n    x = 1\n".data =
      [⟨"paragraph".data, some "para".data, none, none⟩,
       ⟨"paragraph".data, some "x = 1".data, none, none⟩] := by
  refine ⟨fourSpaces_not_in_trim, ?_⟩
  simp +decide [parseRST, splitLines, skipLeadingCount, prevAfter, parseLoop, hasUnderline,
    underlineTest, refTargetTest, jsTrim, trimL, trimR, jsIsWs, containsSub, patTest,
    parseParagraphS, paraCollect, processInlineMarkup, passExt, passRef, passStrong, passEm,
    passDouble, passCode, passRoles, tryExt, tryRef, tryStrong, tryEm, tryDouble, tryCode,
    tryRole, extLabelOk, roleChar, mkPlaceholder, levelOfUnderline, isBlankOpt,
    parseDirectiveS, parseListS, parseListGo, parseCodeBlockS, codeCollect, countBlanks,
    directiveMatch, wordChar, List.intercalate, List.intersperse, replaceFirst, List.foldl]

/-- C2: the claim says `.. code-block:: python` parses into one CodeBlock node
with language `python` and content `x = 1`, rendered as a fenced block.  The
directive regex uses `\w+` for the name, which cannot match the hyphen in
`code-block`, so the directive line degrades to a paragraph and the indented
body becomes a second paragraph (the `case "code-block"` arm of the source's
switch is unreachable); rendering accordingly emits two paragraphs and no
fence. -/
theorem claim_C2_code_block_example :
    parseRST ".. code-block:: python\n\n    x = 1\n".data =
      [⟨"paragraph".data, some ".. code-block:: python".data, none, none⟩,
       ⟨"paragraph".data, some "x = 1".data, none, none⟩]
    ∧ convertToMDX (parseRST ".. code-block:: python\n\n    x = 1\n".data) 0 =
      some (".. code-block:: python\n\nx = 1".data, []) := by
  constructor
  · simp +decide [parseRST, splitLines, skipLeadingCount, prevAfter, parseLoop, hasUnderline,
      underlineTest, refTargetTest, jsTrim, trimL, trimR, jsIsWs, containsSub, patTest,
      parseParagraphS, paraCollect, processInlineMarkup, passExt, passRef, passStrong, passEm,
      passDouble, passCode, passRoles, tryExt, tryRef, tryStrong, tryEm, tryDouble, tryCode,
      tryRole, extLabelOk, roleChar, mkPlaceholder, levelOfUnderline, isBlankOpt,
      parseDirectiveS, parseListS, parseListGo, parseCodeBlockS, codeCollect, countBlanks,
      directiveMatch, wordChar, List.intercalate, List.intersperse, replaceFirst, List.foldl]
  · simp +decide [parseRST, splitLines, skipLeadingCount, prevAfter, parseLoop, hasUnderline,
      underlineTest, refTargetTest, jsTrim, trimL, trimR, jsIsWs, containsSub, patTest,
      parseParagraphS, paraCollect, processInlineMarkup, passExt, passRef, passStrong, passEm,
      passDouble, passCode, passRoles, tryExt, tryRef, tryStrong, tryEm, tryDouble, tryCode,
      tryRole, extLabelOk, roleChar, mkPlaceholder, levelOfUnderline, isBlankOpt,
      parseDirectiveS, parseListS, parseListGo, parseCodeBlockS, codeCollect, countBlanks,
      directiveMatch, wordChar, List.intercalate, List.intersperse, replaceFirst, List.foldl,
      convertToMDX, convertGo, convertNode, convertParagraph, jsOr, optStr]

/-- C4: the claim says a class reference of the shape
`display <class_Name> trailing` renders as a link with the trailing text
preserved after the angle-bracket group.  The source regex captures the
trailing text in its third group but `formatClassReference` never uses it, so
the trailing text is dropped: both the claim's example (no trailing text,
correctly rendered) and a trailing-text input (trailing text lost) are
evaluated below. -/
theorem claim_C4_class_reference :
    processInlineMarkup ":ref:`Enemy <class_Enemy>`".data =
      "[Enemy](/engine/classes/class_enemy)".data
    ∧ processInlineMarkup ":ref:`Enemy <class_Enemy> trailing`".data =
      "[Enemy](/engine/classes/class_enemy)".data
    ∧ formatClassReference "Enemy <class_Enemy> trailing".data =
      "[Enemy](/engine/classes/class_enemy)".data := by
  refine ⟨?_, ?_, ?_⟩ <;>
    simp +decide [processInlineMarkup, passExt, passRef, passStrong, passEm,
      passDouble, passCode, passRoles, tryExt, tryRef, tryStrong, tryEm, tryDouble, tryCode,
      tryRole, extLabelOk, roleChar, mkPlaceholder, roleRepl, containsSub,
      formatClassReference, fcrFind, ciPrefixClass, lowerStr, jsTrim, trimL, trimR, jsIsWs,
      stripAngle, findGtLen, slugOf, collapseWs, replaceFirst, List.foldl]

/-- C7: every admonition renders with a kind from the fixed allowed set
`{note, warning, danger, tip}`; when `options.kind` lies outside that set the
renderer silently coerces it to the default `note` and emits no diagnostic
(the diagnostics component of `convertNode` is empty). -/
theorem claim_C7_admonition_kind :
    (∀ n : RSTNode, admonitionKind n ∈ validKinds)
    ∧ (∀ (n : RSTNode) (w : Int) (k : Str),
        n.type = "admonition".data →
        getOpt n.options "kind".data = some k →
        k ∉ validKinds →
        admonitionKind n = "note".data
        ∧ convertNode n w =
          some (":::note\n\n".data ++
            (if w > 0 then wrapModel w.toNat (jsOr n.content []) else jsOr n.content []) ++
            "\n\n:::".data, [])) := by
  have hkind : ∀ n : RSTNode, admonitionKind n ∈ validKinds := by
    intro n
    by_cases h : jsOr (getOpt n.options "kind".data) "note".data ∈ validKinds
    · simpa [admonitionKind, h] using h
    · simp +decide [admonitionKind, h]
  refine ⟨hkind, fun n w k hty hk hout => ?_⟩
  have hak : admonitionKind n = "note".data := by
    unfold admonitionKind
    rw [hk]
    by_cases hke : k = []
    · subst hke
      simp +decide [jsOr]
    · rw [show jsOr (some k) "note".data = k from by simp [jsOr, hke]]
      rw [if_neg hout]
  have hcn : convertNode n w = some (convertAdmonition n w, []) := by
    rw [convertNode]
    simp +decide [hty]
  refine ⟨hak, ?_⟩
  rw [hcn]
  simp +decide [convertAdmonition, hak]

/-- C7 witness: a concrete admonition node with the out-of-set kind `caution`
is rendered as a `note` container with no diagnostic. -/
theorem claim_C7_admonition_kind_witness :
    admonitionKind ⟨"admonition".data, some "c".data, none,
        some [("kind".data, "caution".data)]⟩ = "note".data
    ∧ convertNode ⟨"admonition".data, some "c".data, none,
        some [("kind".data, "caution".data)]⟩ 0 =
      some (":::note\n\n".data ++
        (if (0 : Int) > 0 then wrapModel (0 : Int).toNat (jsOr (some "c".data) [])
         else jsOr (some "c".data) []) ++
        "\n\n:::".data, []) :=
  claim_C7_admonition_kind.2
    ⟨"admonition".data, some "c".data, none, some [("kind".data, "caution".data)]⟩
    0 "caution".data rfl (by decide) (by decide)

/-- C10: every recognizer invoked by the main parser loop returns a next-line
index strictly greater than the index at which it was invoked —
unconditionally for the directive and paragraph recognizers, and under the
loop's own guard for the list recognizer (the current trimmed line matches the
marker) and for the code-block recognizer (the current line is indented by four
spaces or blank).  The blank-skip and heading branches advance by the literal
offsets 1 and 2, and `parseLoop`'s own well-founded definition on the remaining
line count witnesses termination of the whole parse on every finite input. -/
theorem claim_C10_parser_advances (lines : List Str) (i : Nat) (h : i < lines.length) :
    i < (parseDirective lines i).2
    ∧ (∀ pat : Pat, patTest pat (jsTrim lines[i]) = true → i < (parseList lines i pat).2)
    ∧ (("    ".data.isPrefixOf lines[i] || (jsTrim lines[i] == [])) = true →
        i < (parseCodeBlock lines i).2)
    ∧ i < (parseParagraph lines i).2 := by
  have hdrop : lines.drop i = lines[i] :: lines.drop (i + 1) :=
    List.drop_eq_getElem_cons h
  refine ⟨?_, ?_, ?_, ?_⟩
  · have := parseDirectiveS_pos (lines.drop i)
    unfold parseDirective
    omega
  · intro pat hpat
    unfold parseList
    rw [hdrop]
    have := @parseListS_head_pos pat lines[i] (lines.drop (i + 1)) hpat
    omega
  · intro hcode
    unfold parseCodeBlock parseCodeBlockS
    rw [hdrop]
    have := codeCollect_head_pos (lines.drop (i + 1)) hcode
    simp only []
    omega
  · have := parseParagraphS_pos (lines.drop i)
    unfold parseParagraph
    omega

/-- C10 witness: on the one-line array `["- a"]` at index 0, every recognizer
advances. -/
theorem claim_C10_parser_advances_witness :
    0 < (parseDirective ["- a".data] 0).2
    ∧ (∀ pat : Pat, patTest pat (jsTrim ("- a".data : Str)) = true →
        0 < (parseList ["- a".data] 0 pat).2)
    ∧ (("    ".data.isPrefixOf ("- a".data : Str) || (jsTrim ("- a".data : Str) == [])) = true →
        0 < (parseCodeBlock ["- a".data] 0).2)
    ∧ 0 < (parseParagraph ["- a".data] 0).2 :=
  claim_C10_parser_advances ["- a".data] 0 (by decide)

/-- Words produced by `splitWsAux` are nonempty and whitespace-free. -/
theorem splitWsAux_words_ok (s : Str) :
    ∀ cur, (∀ c ∈ cur, jsIsWs c = false) →
      ∀ wd ∈ splitWsAux s cur, wd ≠ [] ∧ ∀ c ∈ wd, jsIsWs c = false := by
  induction s with
  | nil =>
    intro cur hcur wd hwd
    unfold splitWsAux at hwd
    split at hwd
    · simp at hwd
    · simp at hwd
      subst hwd
      refine ⟨by simpa using ‹¬cur = []›, fun c hc => hcur c (by simpa using hc)⟩
  | cons a rest ih =>
    intro cur hcur wd hwd
    unfold splitWsAux at hwd
    by_cases ha : jsIsWs a
    · rw [if_pos ha] at hwd
      split at hwd
      · exact ih [] (by simp) wd hwd
      · rcases List.mem_cons.mp hwd with h | h
        · subst h
          refine ⟨by simpa using ‹¬cur = []›, fun c hc => hcur c (by simpa using hc)⟩
        · exact ih [] (by simp) wd h
    · rw [if_neg ha] at hwd
      refine ih (a :: cur) ?_ wd hwd
      intro c hc
      rcases List.mem_cons.mp hc with h | h
      · subst h; simpa using ha
      · exact hcur c h

/-- Unfolding equation of `splitWsAux` on nil. -/
theorem splitWsAux_nil (cur : Str) :
    splitWsAux [] cur = if cur = [] then [] else [cur.reverse] := rfl

/-- Unfolding equation of `splitWsAux` on cons. -/
theorem splitWsAux_cons (c : Char) (rest cur : Str) :
    splitWsAux (c :: rest) cur =
      if jsIsWs c then
        (if cur = [] then splitWsAux rest [] else cur.reverse :: splitWsAux rest [])
      else splitWsAux rest (c :: cur) := rfl

/-- Scanning a whitespace-free word followed by a whitespace character flushes
exactly that word (with the pending accumulator). -/
theorem splitWsAux_through_word {d : Char} (hd : jsIsWs d = true) (t : Str) :
    ∀ (wd cur : Str), (∀ c ∈ wd, jsIsWs c = false) → (wd ≠ [] ∨ cur ≠ []) →
      splitWsAux (wd ++ d :: t) cur = (cur.reverse ++ wd) :: splitWsAux t [] := by
  intro wd
  induction wd with
  | nil =>
    intro cur hw hne
    have hc : ¬cur = [] := hne.resolve_left (fun h => h rfl)
    simp only [List.nil_append, splitWsAux_cons, hd, if_true, if_neg hc]
    simp
  | cons a wd' ih =>
    intro cur hw hne
    have ha : jsIsWs a = false := hw a (List.mem_cons_self _ _)
    simp only [List.cons_append, splitWsAux_cons, ha]
    simp only [Bool.false_eq_true, if_false]
    rw [ih (a :: cur) (fun c hc => hw c (List.mem_cons_of_mem _ hc)) (Or.inr (by simp))]
    simp

/-- Scanning a whitespace-free word at the end of input flushes it. -/
theorem splitWsAux_final_word :
    ∀ (wd cur : Str), (∀ c ∈ wd, jsIsWs c = false) → (wd ≠ [] ∨ cur ≠ []) →
      splitWsAux wd cur = [cur.reverse ++ wd] := by
  intro wd
  induction wd with
  | nil =>
    intro cur hw hne
    have hc : ¬cur = [] := hne.resolve_left (fun h => h rfl)
    rw [splitWsAux_nil, if_neg hc]
    simp
  | cons a wd' ih =>
    intro cur hw hne
    have ha : jsIsWs a = false := hw a (List.mem_cons_self _ _)
    rw [splitWsAux_cons, ha]
    simp only [Bool.false_eq_true, if_false]
    rw [ih (a :: cur) (fun c hc => hw c (List.mem_cons_of_mem _ hc)) (Or.inr (by simp))]
    simp

/-- Scanning a space-joined group of good words followed by a whitespace
character recovers the group. -/
theorem splitWs_group_sep {d : Char} (hd : jsIsWs d = true) (t : Str) :
    ∀ g : List Str, g ≠ [] → (∀ wd ∈ g, wd ≠ [] ∧ ∀ c ∈ wd, jsIsWs c = false) →
      splitWsAux (List.intercalate [' '] g ++ d :: t) [] = g ++ splitWsAux t [] := by
  intro g
  induction g with
  | nil => intro h; exact absurd rfl h
  | cons wd g' ih =>
    intro _ hw
    rcases g' with _ | ⟨b, g''⟩
    · rw [show List.intercalate [' '] [wd] = wd by simp [List.intercalate]]
      rw [splitWsAux_through_word hd t wd [] (hw wd (List.mem_cons_self _ _)).2
        (Or.inl (hw wd (List.mem_cons_self _ _)).1)]
      simp
    · rw [show List.intercalate [' '] (wd :: b :: g'') =
        wd ++ [' '] ++ List.intercalate [' '] (b :: g'') by
          simp [List.intercalate, List.intersperse]]
      rw [show wd ++ [' '] ++ List.intercalate [' '] (b :: g'') ++ d :: t
        = wd ++ ' ' :: (List.intercalate [' '] (b :: g'') ++ d :: t) by simp]
      rw [splitWsAux_through_word (by decide) _ wd [] (hw wd (List.mem_cons_self _ _)).2
        (Or.inl (hw wd (List.mem_cons_self _ _)).1)]
      rw [ih (by simp) (fun x hx => hw x (List.mem_cons_of_mem _ hx))]
      simp

/-- Scanning a space-joined group of good words at the end of input recovers
the group. -/
theorem splitWs_group_last :
    ∀ g : List Str, g ≠ [] → (∀ wd ∈ g, wd ≠ [] ∧ ∀ c ∈ wd, jsIsWs c = false) →
      splitWsAux (List.intercalate [' '] g) [] = g := by
  intro g
  induction g with
  | nil => intro h; exact absurd rfl h
  | cons wd g' ih =>
    intro _ hw
    rcases g' with _ | ⟨b, g''⟩
    · rw [show List.intercalate [' '] [wd] = wd by simp [List.intercalate]]
      rw [splitWsAux_final_word wd [] (hw wd (List.mem_cons_self _ _)).2
        (Or.inl (hw wd (List.mem_cons_self _ _)).1)]
      simp
    · rw [show List.intercalate [' '] (wd :: b :: g'') =
        wd ++ [' '] ++ List.intercalate [' '] (b :: g'') by
          simp [List.intercalate, List.intersperse]]
      rw [show wd ++ [' '] ++ List.intercalate [' '] (b :: g'')
        = wd ++ ' ' :: List.intercalate [' '] (b :: g'') by simp]
      rw [splitWsAux_through_word (by decide) _ wd [] (hw wd (List.mem_cons_self _ _)).2
        (Or.inl (hw wd (List.mem_cons_self _ _)).1)]
      rw [ih (by simp) (fun x hx => hw x (List.mem_cons_of_mem _ hx))]
      simp

/-- Re-scanning a rendering of word groups (space-joined words on
newline-joined lines) recovers exactly the concatenation of the groups. -/
theorem splitWs_render (grps : List (List Str))
    (hg : ∀ g ∈ grps, g ≠ [])
    (hw : ∀ g ∈ grps, ∀ wd ∈ g, wd ≠ [] ∧ ∀ c ∈ wd, jsIsWs c = false) :
    splitWsAux (List.intercalate ['\n'] (grps.map (List.intercalate [' ']))) [] =
      grps.flatten := by
  induction grps with
  | nil => simp [List.intercalate, splitWsAux_nil]
  | cons g grps' ih =>
    rcases grps' with _ | ⟨g2, grps''⟩
    · rw [show (([g] : List (List Str)).map (List.intercalate [' ']))
        = [List.intercalate [' '] g] by simp]
      rw [show List.intercalate ['\n'] [List.intercalate [' '] g] = List.intercalate [' '] g by
        simp [List.intercalate]]
      rw [splitWs_group_last g (hg g (List.mem_cons_self _ _)) (hw g (List.mem_cons_self _ _))]
      simp
    · rw [show ((g :: g2 :: grps'').map (List.intercalate [' ']))
        = List.intercalate [' '] g :: (g2 :: grps'').map (List.intercalate [' ']) by simp]
      rw [show List.intercalate ['\n']
          (List.intercalate [' '] g :: (g2 :: grps'').map (List.intercalate [' ']))
        = List.intercalate [' '] g ++ '\n' ::
            List.intercalate ['\n'] ((g2 :: grps'').map (List.intercalate [' '])) by
          simp [List.intercalate, List.intersperse]]
      rw [splitWs_group_sep (by decide) _ g (hg g (List.mem_cons_self _ _))
        (hw g (List.mem_cons_self _ _))]
      rw [ih (fun x hx => hg x (List.mem_cons_of_mem _ hx))
        (fun x hx => hw x (List.mem_cons_of_mem _ hx))]
      simp

/-- The greedy grouping is a partition: flattening it returns the pending line
followed by the remaining words. -/
theorem greedyGroups_flatten (w : Nat) :
    ∀ (ws cur : List Str), (greedyGroups w ws cur).flatten = cur ++ ws := by
  intro ws
  induction ws with
  | nil =>
    intro cur
    unfold greedyGroups
    split <;> simp_all
  | cons wd rest ih =>
    intro cur
    unfold greedyGroups
    by_cases hc : cur = []
    · rw [if_pos hc, ih [wd], hc]
      simp
    · rw [if_neg hc]
      split
      · rw [ih (cur ++ [wd])]
        simp
      · rw [show ((cur :: greedyGroups w rest [wd]).flatten)
          = cur ++ (greedyGroups w rest [wd]).flatten by simp]
        rw [ih [wd]]
        simp

/-- Every group emitted by the greedy grouping is nonempty. -/
theorem greedyGroups_ne_nil (w : Nat) :
    ∀ (ws cur : List Str), ∀ g ∈ greedyGroups w ws cur, g ≠ [] := by
  intro ws
  induction ws with
  | nil =>
    intro cur g hg
    unfold greedyGroups at hg
    split at hg
    · simp at hg
    · simp at hg
      subst hg
      assumption
  | cons wd rest ih =>
    intro cur g hg
    unfold greedyGroups at hg
    by_cases hc : cur = []
    · rw [if_pos hc] at hg
      exact ih [wd] g hg
    · rw [if_neg hc] at hg
      split at hg
      · exact ih (cur ++ [wd]) g hg
      · rcases List.mem_cons.mp hg with h | h
        · subst h; exact hc
        · exact ih [wd] g h

/-- Re-scanning wrapped text yields the words of the original text. -/
theorem wrap_words (w : Nat) (s : Str) :
    splitWsAux (wrapModel w s) [] = splitWsAux s [] := by
  unfold wrapModel
  have hwords := splitWsAux_words_ok s [] (by simp)
  have hmem : ∀ g ∈ greedyGroups w (splitWsAux s []) [], ∀ wd ∈ g,
      wd ≠ [] ∧ ∀ c ∈ wd, jsIsWs c = false := by
    intro g hg wd hwd
    have : wd ∈ (greedyGroups w (splitWsAux s []) []).flatten :=
      List.mem_flatten.mpr ⟨g, hg, hwd⟩
    rw [greedyGroups_flatten] at this
    exact hwords wd (by simpa using this)
  rw [splitWs_render _ (greedyGroups_ne_nil w (splitWsAux s []) []) hmem]
  rw [greedyGroups_flatten]
  simp

/-- C9: with wrap width at most zero, paragraph and list-item rendering are the
identity on the node content; with a positive width, reflowing already-reflowed
text at the same width is a no-op (the spec-modelled `wrapModel` is idempotent
at every width). -/
theorem claim_C9_wrap_idempotent :
    (∀ (n : RSTNode) (w : Int), w ≤ 0 →
      convertParagraph n w = jsOr n.content [] ∧ convertListItem n = jsOr n.content [])
    ∧ (∀ (w : Int) (s : Str), 0 < w →
      wrapModel w.toNat (wrapModel w.toNat s) = wrapModel w.toNat s) := by
  constructor
  · intro n w hw
    refine ⟨?_, rfl⟩
    unfold convertParagraph
    rw [if_neg (by omega)]
  · intro w s _
    show List.intercalate ['\n']
        ((greedyGroups w.toNat (splitWsAux (wrapModel w.toNat s) []) []).map
          (List.intercalate [' '])) = _
    rw [wrap_words]
    rfl

/-- C9 witness: width `-1` leaves a concrete paragraph content untouched, and
re-wrapping a concrete already-wrapped text at width 10 is a no-op. -/
theorem claim_C9_wrap_idempotent_witness :
    (convertParagraph ⟨"paragraph".data, some "a b".data, none, none⟩ (-1) =
      jsOr (some "a b".data) []
      ∧ convertListItem ⟨"paragraph".data, some "a b".data, none, none⟩ =
        jsOr (some "a b".data) [])
    ∧ wrapModel (10 : Int).toNat (wrapModel (10 : Int).toNat "aaa bbb ccc ddd eee".data) =
      wrapModel (10 : Int).toNat "aaa bbb ccc ddd eee".data :=
  ⟨claim_C9_wrap_idempotent.1 ⟨"paragraph".data, some "a b".data, none, none⟩ (-1) (by norm_num),
   claim_C9_wrap_idempotent.2 10 "aaa bbb ccc ddd eee".data (by norm_num)⟩

/-- The list-item node built by `parseListGo` for one matching line. -/
def listItemNode (pat : Pat) (l : Str) : RSTNode :=
  ⟨"listItem".data, some (processInlineMarkup (jsTrim (patStrip pat (jsTrim l)))), none, none⟩

/-- Neither marker pattern matches the empty (trimmed) line. -/
theorem patTest_nil (pat : Pat) : patTest pat [] = false := by
  cases pat <;> rfl

/-- On a run of lines that all match the marker, `parseListGo` collects one
item per line and consumes them all. -/
theorem parseListGo_all (pat : Pat) :
    ∀ items : List Str, (∀ l ∈ items, patTest pat (jsTrim l) = true) →
      parseListGo pat items = (items.map (listItemNode pat), items.length) := by
  intro items
  induction items with
  | nil => intro _; simp [parseListGo]
  | cons l rest ih =>
    intro h
    have hl := h l (List.mem_cons_self _ _)
    rw [parseListGo]
    simp only [hl, reduceDIte]
    rw [ih (fun x hx => h x (List.mem_cons_of_mem _ hx))]
    simp [listItemNode]

/-- A single blank line between two matching lines is skipped by the lookahead
and the list continues. -/
theorem parseListGo_blank_skip (pat : Pat) (b : Str) (rest : List Str)
    (hb : patTest pat (jsTrim b) = true) :
    parseListGo pat ([] :: b :: rest) =
      ((parseListGo pat (b :: rest)).1, 1 + (parseListGo pat (b :: rest)).2) := by
  have h0 : patTest pat (jsTrim ([] : Str)) = false := by
    rw [show jsTrim ([] : Str) = [] from rfl]
    exact patTest_nil pat
  have hbne : jsTrim b ≠ [] := by
    intro he
    rw [he, patTest_nil] at hb
    exact absurd hb (by simp)
  have hcb : countBlanks ([] :: b :: rest) = 1 := by
    unfold countBlanks countBlanks
    rw [if_pos (show jsTrim ([] : Str) = [] from rfl), if_neg hbne]
  rw [parseListGo]
  simp only [h0, reduceDIte, hcb]
  simp [hb]

/-- C6: a list whose items all use the same marker, written with one blank
line between consecutive items, parses to the same `children` sequence as the
version with no blank lines — one ListItem per line, same content, same
order. -/
theorem claim_C6_list_blank_lines (pat : Pat) (items : List Str)
    (h : ∀ l ∈ items, patTest pat (jsTrim l) = true) :
    (parseListS pat (List.intersperse [] items)).1.children
      = (parseListS pat items).1.children
    ∧ (parseListS pat items).1.children = some (items.map (listItemNode pat)) := by
  have key : ∀ items : List Str, (∀ l ∈ items, patTest pat (jsTrim l) = true) →
      (parseListGo pat (List.intersperse [] items)).1 = items.map (listItemNode pat) := by
    intro items
    induction items with
    | nil => intro _; simp [parseListGo]
    | cons l rest ih =>
      intro h
      have hl := h l (List.mem_cons_self _ _)
      rcases rest with _ | ⟨b, rest'⟩
      · rw [show List.intersperse ([] : Str) [l] = [l] by simp]
        rw [parseListGo_all pat [l] (by simpa using hl)]
      · rw [show List.intersperse ([] : Str) (l :: b :: rest')
          = l :: [] :: List.intersperse [] (b :: rest') by simp]
        rw [parseListGo]
        simp only [hl, reduceDIte]
        have hb := h b (List.mem_cons_of_mem _ (List.mem_cons_self _ _))
        have hstep : List.intersperse ([] : Str) (b :: rest')
            = b :: (List.intersperse [] (b :: rest')).tail := by
          rcases rest' with _ | ⟨c, rest''⟩ <;> simp
        have ihr := ih (fun x hx => h x (List.mem_cons_of_mem _ hx))
        rcases rest' with _ | ⟨c, rest''⟩
        · rw [show List.intersperse ([] : Str) [b] = [b] by simp]
          rw [parseListGo_blank_skip pat b [] hb]
          rw [show List.intersperse ([] : Str) [b] = [b] by simp] at ihr
          rw [ihr]
          simp [listItemNode]
        · rw [show List.intersperse ([] : Str) (b :: c :: rest'')
            = b :: [] :: List.intersperse [] (c :: rest'') by simp]
          rw [parseListGo_blank_skip pat b ([] :: List.intersperse [] (c :: rest'')) hb]
          rw [show List.intersperse ([] : Str) (b :: c :: rest'')
            = b :: [] :: List.intersperse [] (c :: rest'') by simp] at ihr
          rw [ihr]
          simp [listItemNode]
  constructor
  · unfold parseListS
    simp only []
    rw [key items h, parseListGo_all pat items h]
  · unfold parseListS
    simp only []
    rw [parseListGo_all pat items h]

/-- C6 witness: the two-item bullet list with and without a separating blank
line. -/
theorem claim_C6_list_blank_lines_witness :
    (parseListS .bullet (List.intersperse [] ["- a".data, "- b".data])).1.children
      = (parseListS .bullet ["- a".data, "- b".data]).1.children
    ∧ (parseListS .bullet ["- a".data, "- b".data]).1.children
      = some (["- a".data, "- b".data].map (listItemNode .bullet)) :=
  claim_C6_list_blank_lines .bullet ["- a".data, "- b".data] (by decide)

/-- The frontmatter block emitted for the first heading. -/
def frontmatterOf (n : RSTNode) : Str :=
  "---\ntitle: ".data ++ optStr n.content ++ "\n---\n\n".data

/-- The body fragment one node contributes when it renders as ordinary body
markup (its `convertNode` text followed by the blank-line separator). -/
def renderedBody (w : Int) (n : RSTNode) : Str :=
  ((convertNode n w).getD ([], [])).1 ++ "\n\n".data

/-- Concatenated body fragments of a node list. -/
def bodyCat (w : Int) (ns : List RSTNode) : Str := (ns.map (renderedBody w)).flatten

/-- Concatenated diagnostics of a node list. -/
def warnCat (w : Int) (ns : List RSTNode) : List Str :=
  (ns.map (fun n => ((convertNode n w).getD ([], [])).2)).flatten

/-- Unfolding equation of `convertGo` on nil. -/
theorem convertGo_nil (w : Int) (flag : Bool) (acc : Str) (warns : List Str) :
    convertGo w [] flag acc warns = some (jsTrim acc, warns) := rfl

/-- Unfolding equation of `convertGo` on cons. -/
theorem convertGo_cons (w : Int) (n : RSTNode) (rest : List RSTNode) (flag : Bool)
    (acc : Str) (warns : List Str) :
    convertGo w (n :: rest) flag acc warns =
      if n.type = "heading".data ∧ flag = false then
        convertGo w rest true
          (acc ++ "---\ntitle: ".data ++ optStr n.content ++ "\n---\n\n".data) warns
      else
        match convertNode n w with
        | none => none
        | some r => convertGo w rest flag (acc ++ r.1 ++ "\n\n".data) (warns ++ r.2) := rfl

/-- Past the frontmatter stage (flag already set), `convertGo` renders every
node — headings included — through `convertNode` and appends the fragments. -/
theorem convertGo_true (w : Int) :
    ∀ (ns : List RSTNode) (acc : Str) (warns : List Str),
      (∀ n ∈ ns, (convertNode n w).isSome) →
      convertGo w ns true acc warns =
        some (jsTrim (acc ++ bodyCat w ns), warns ++ warnCat w ns) := by
  intro ns
  induction ns with
  | nil => intro acc warns _; simp [convertGo_nil, bodyCat, warnCat]
  | cons n rest ih =>
    intro acc warns h
    have hn := h n (List.mem_cons_self _ _)
    rcases hr : convertNode n w with _ | r
    · rw [hr] at hn; simp at hn
    · rw [convertGo_cons]
      rw [if_neg (by simp)]
      rw [hr]
      dsimp only
      rw [ih _ _ (fun x hx => h x (List.mem_cons_of_mem _ hx))]
      simp [bodyCat, warnCat, renderedBody, hr]

/-- A heading-free, renderable prefix contributes its body fragments and
leaves the frontmatter flag unset. -/
theorem convertGo_false_pre (w : Int) :
    ∀ pre : List RSTNode, (∀ n ∈ pre, ¬n.type = "heading".data) →
      (∀ n ∈ pre, (convertNode n w).isSome) →
      ∀ (rest : List RSTNode) (acc : Str) (warns : List Str),
        convertGo w (pre ++ rest) false acc warns =
          convertGo w rest false (acc ++ bodyCat w pre) (warns ++ warnCat w pre) := by
  intro pre
  induction pre with
  | nil => intro _ _ rest acc warns; simp [bodyCat, warnCat]
  | cons n pre' ih =>
    intro hh hs rest acc warns
    have hn := hs n (List.mem_cons_self _ _)
    rcases hr : convertNode n w with _ | r
    · rw [hr] at hn; simp at hn
    · rw [List.cons_append, convertGo_cons]
      rw [if_neg (by simp [hh n (List.mem_cons_self _ _)])]
      rw [hr]
      dsimp only
      rw [ih (fun x hx => hh x (List.mem_cons_of_mem _ hx))
        (fun x hx => hs x (List.mem_cons_of_mem _ hx))]
      simp [bodyCat, warnCat, renderedBody, hr]

/-- C5: for a node sequence holding two or more headings — a heading-free
prefix, a first heading, then the rest containing at least one more heading —
rendering emits exactly one frontmatter block, built from that first heading
(which is not also rendered as body heading markup), while every node of the
prefix and of the rest, later headings included, renders as an ordinary body
fragment through `convertNode`. -/
theorem claim_C5_frontmatter_exclusive (pre post : List RSTNode) (h : RSTNode) (w : Int)
    (hh : h.type = "heading".data)
    (hpre : ∀ n ∈ pre, ¬n.type = "heading".data)
    (hdef : ∀ n ∈ pre ++ post, (convertNode n w).isSome)
    (hpost : ∃ n ∈ post, n.type = "heading".data) :
    convertToMDX (pre ++ h :: post) w =
      some (jsTrim (bodyCat w pre ++ frontmatterOf h ++ bodyCat w post),
        warnCat w pre ++ warnCat w post) := by
  unfold convertToMDX
  rw [convertGo_false_pre w pre hpre
    (fun n hn => hdef n (List.mem_append_left _ hn)) (h :: post) [] []]
  rw [convertGo_cons, if_pos ⟨hh, rfl⟩]
  rw [convertGo_true w post _ _ (fun n hn => hdef n (List.mem_append_right _ hn))]
  simp [frontmatterOf]

/-- C5 witness: two heading nodes — the first becomes the frontmatter, the
second renders as an ordinary heading fragment. -/
theorem claim_C5_frontmatter_exclusive_witness :
    convertToMDX ([] ++ ⟨"heading".data, some "A".data, none,
        some [("level".data, "1".data)]⟩ ::
      [⟨"heading".data, some "B".data, none, some [("level".data, "2".data)]⟩]) 0 =
      some (jsTrim (bodyCat 0 [] ++
          frontmatterOf ⟨"heading".data, some "A".data, none,
            some [("level".data, "1".data)]⟩ ++
          bodyCat 0 [⟨"heading".data, some "B".data, none, some [("level".data, "2".data)]⟩]),
        warnCat 0 [] ++
          warnCat 0 [⟨"heading".data, some "B".data, none, some [("level".data, "2".data)]⟩]) :=
  claim_C5_frontmatter_exclusive []
    [⟨"heading".data, some "B".data, none, some [("level".data, "2".data)]⟩]
    ⟨"heading".data, some "A".data, none, some [("level".data, "1".data)]⟩ 0 rfl
    (by simp)
    (by
      intro n hn
      simp only [List.nil_append, List.mem_singleton] at hn
      subst hn
      simp +decide [convertNode, convertHeading, jsParseInt, digitsVal, getOpt, jsOr,
        jsIsWs, optStr])
    ⟨⟨"heading".data, some "B".data, none, some [("level".data, "2".data)]⟩, by simp, rfl⟩

/-- The safety invariant every parser-produced node enjoys: a heading carries a
well-formed level option drawn from the fixed table, and list children are
always ListItem nodes.  These are exactly the conditions under which the
renderer's only partial operation (`"#".repeat`) cannot fail. -/
def NodeSafe (n : RSTNode) : Prop :=
  (n.type = "heading".data →
    ∃ lv ∈ [1, 2, 3, 4, 5, 6], n.options = some [("level".data, (Nat.repr lv).data)])
  ∧ (∀ cs, n.children = some cs → ∀ c ∈ cs, c.type = "listItem".data)

/-- A heading whose level option is one of the table values renders. -/
theorem convertHeading_isSome_of_level {n : RSTNode} {lv : Nat}
    (hlv : lv ∈ [1, 2, 3, 4, 5, 6])
    (hopt : n.options = some [("level".data, (Nat.repr lv).data)]) :
    (convertHeading n).isSome := by
  unfold convertHeading
  rw [hopt]
  fin_cases hlv <;>
    simp +decide [getOpt, jsOr, jsParseInt, digitsVal, jsIsWs,
      show (Nat.repr 1).data = ['1'] by decide, show (Nat.repr 2).data = ['2'] by decide,
      show (Nat.repr 3).data = ['3'] by decide, show (Nat.repr 4).data = ['4'] by decide,
      show (Nat.repr 5).data = ['5'] by decide, show (Nat.repr 6).data = ['6'] by decide]

/-- A ListItem node always renders. -/
theorem convertNode_listItem_isSome (c : RSTNode) (w : Int)
    (hc : c.type = "listItem".data) : (convertNode c w).isSome := by
  rw [convertNode]
  simp +decide [hc]

/-- A list of ListItem children always renders. -/
theorem convertEach_isSome (w : Int) :
    ∀ cs : List RSTNode, (∀ c ∈ cs, c.type = "listItem".data) →
      (convertEach cs w).isSome := by
  intro cs
  induction cs with
  | nil => intro _; simp [convertEach]
  | cons c cs' ih =>
    intro h
    rw [convertEach]
    rcases Option.isSome_iff_exists.mp
      (convertNode_listItem_isSome c w (h c (List.mem_cons_self _ _))) with ⟨r, hr⟩
    rw [hr]
    dsimp only
    rcases Option.isSome_iff_exists.mp
      (ih (fun x hx => h x (List.mem_cons_of_mem _ hx))) with ⟨rs, hrs⟩
    rw [hrs]
    simp

set_option maxHeartbeats 1000000 in
/-- Every safe node renders: the renderer has a defined output on it. -/
theorem convertNode_isSome_of_safe (n : RSTNode) (w : Int) (hs : NodeSafe n) :
    (convertNode n w).isSome := by
  rw [convertNode]
  split_ifs with h1 h2 h3 h4 h5 h6 h7 h8 h9
  · obtain ⟨lv, hlv, hopt⟩ := hs.1 h1
    rcases Option.isSome_iff_exists.mp (convertHeading_isSome_of_level hlv hopt) with ⟨v, hv⟩
    rw [hv]
    rfl
  · rfl
  · split
    · rfl
    · rename_i cs hcs
      rcases Option.isSome_iff_exists.mp (convertEach_isSome w cs (hs.2 cs hcs)) with ⟨rs, hrs⟩
      rw [hrs]
      rfl
  · split
    · rfl
    · rename_i cs hcs
      rcases Option.isSome_iff_exists.mp (convertEach_isSome w cs (hs.2 cs hcs)) with ⟨rs, hrs⟩
      rw [hrs]
      rfl
  · rfl
  · rfl
  · rfl
  · rfl
  · rfl
  · rfl
  · rfl

/-- The heading level table only produces levels 1 through 6. -/
theorem getHeaderLevel_mem (c : Char) : getHeaderLevel c ∈ [1, 2, 3, 4, 5, 6] := by
  unfold getHeaderLevel
  split_ifs <;> simp

/-- Hence so does `levelOfUnderline`. -/
theorem levelOfUnderline_mem (rest : List Str) :
    levelOfUnderline rest ∈ [1, 2, 3, 4, 5, 6] := by
  cases rest with
  | nil => simp [levelOfUnderline]
  | cons nxt t => exact getHeaderLevel_mem _

/-- The heading nodes built by the main loop are safe. -/
theorem nodeSafe_heading (content : Str) (rest : List Str) :
    NodeSafe ⟨"heading".data, some content, none,
      some [("level".data, (Nat.repr (levelOfUnderline rest)).data)]⟩ := by
  refine ⟨fun _ => ⟨levelOfUnderline rest, levelOfUnderline_mem rest, rfl⟩, ?_⟩
  intro cs hcs
  simp at hcs

/-- Every node built by the directive sub-parser is safe (none is a heading,
none has children). -/
theorem nodeSafe_parseDirectiveS (s : List Str) : NodeSafe (parseDirectiveS s).1 := by
  unfold parseDirectiveS
  repeat' split
  all_goals refine ⟨fun h => ?_, fun cs hcs => ?_⟩
  all_goals first
    | simp +decide at h
    | simp at hcs

/-- Every item collected by the list sub-parser is a ListItem node. -/
theorem parseListGo_types (pat : Pat) :
    ∀ s : List Str, ∀ c ∈ (parseListGo pat s).1, c.type = "listItem".data := by
  intro s
  induction s using parseListGo.induct pat with
  | case1 => simp [parseListGo]
  | case2 l ls hm ih =>
    intro c hc
    rw [parseListGo] at hc
    rw [dif_pos hm] at hc
    dsimp only at hc
    rcases List.mem_cons.mp hc with h | h
    · subst h; rfl
    · exact ih c h
  | case3 l ls hm j hcond ih =>
    intro c hc
    rw [parseListGo] at hc
    rw [dif_neg hm] at hc
    rw [dif_pos hcond] at hc
    dsimp only at hc
    exact ih c hc
  | case4 l ls hm j hcond =>
    intro c hc
    rw [parseListGo] at hc
    rw [dif_neg hm] at hc
    rw [dif_neg hcond] at hc
    simp at hc

/-- The list nodes built by `parseListS` are safe: not headings, and their
children are all ListItem nodes. -/
theorem nodeSafe_parseListS (pat : Pat) (s : List Str) : NodeSafe (parseListS pat s).1 := by
  constructor
  · intro h
    exfalso
    revert h
    unfold parseListS
    cases pat <;> simp +decide
  · intro cs hcs
    have hcs2 : some (parseListGo pat s).1 = some cs := hcs
    intro c hc
    exact parseListGo_types pat s c (by rw [Option.some.injEq] at hcs2; rw [← hcs2] at hc; exact hc)

/-- Shape of the paragraph sub-parser's node. -/
theorem parseParagraphS_node (s : List Str) :
    (parseParagraphS s).1 = ⟨"paragraph".data,
      some (processInlineMarkup (List.intercalate [' '] (paraCollect s).1)), none, none⟩ := rfl

/-- Shape of the code-block sub-parser's node. -/
theorem parseCodeBlockS_node (s : List Str) :
    (parseCodeBlockS s).1 = ⟨"codeBlock".data, some (jsTrim (codeCollect s).1), none,
      some [("language".data, "text".data)]⟩ := rfl

/-- Every node the main loop emits is safe. -/
theorem parseLoop_safe :
    ∀ (prev : Option Str) (s : List Str), ∀ n ∈ parseLoop prev s, NodeSafe n := by
  intro prev s
  induction prev, s using parseLoop.induct with
  | case1 prev => simp [parseLoop]
  | case2 prev l ls hblank ih =>
    intro n hn
    rw [parseLoop] at hn
    simp only [if_pos hblank] at hn
    exact ih n hn
  | case3 prev l ls hnb hu ih =>
    intro n hn
    rw [parseLoop] at hn
    simp only [if_neg hnb, hu, reduceDIte] at hn
    rcases List.mem_cons.mp hn with h | h
    · subst h; exact nodeSafe_heading (jsTrim l) ls
    · exact ih n h
  | case4 prev l ls hnb hu hd ih =>
    intro n hn
    rw [parseLoop] at hn
    simp only [if_neg hnb, hu, reduceDIte, hd, if_true, if_pos] at hn
    rcases List.mem_cons.mp hn with h | h
    · subst h; exact nodeSafe_parseDirectiveS (l :: ls)
    · exact ih n h
  | case5 prev l ls hnb hu hd hb ih =>
    intro n hn
    rw [parseLoop] at hn
    simp only [if_neg hnb, hu, reduceDIte, hd, Bool.false_eq_true, if_false, hb] at hn
    rcases List.mem_cons.mp hn with h | h
    · subst h; exact nodeSafe_parseListS .bullet (l :: ls)
    · exact ih n h
  | case6 prev l ls hnb hu hd hb he ih =>
    intro n hn
    rw [parseLoop] at hn
    simp only [if_neg hnb, hu, reduceDIte, hd, Bool.false_eq_true, if_false, hb, he] at hn
    rcases List.mem_cons.mp hn with h | h
    · subst h; exact nodeSafe_parseListS .enum (l :: ls)
    · exact ih n h
  | case7 prev l ls hnb hu hd hb he hlit ih =>
    intro n hn
    rw [parseLoop] at hn
    simp only [if_neg hnb, hu, reduceDIte, hd, Bool.false_eq_true, if_false, hb, he,
      hlit] at hn
    rcases List.mem_cons.mp hn with h | h
    · subst h
      rw [parseCodeBlockS_node]
      refine ⟨fun h2 => ?_, fun cs hcs => ?_⟩
      · simp +decide at h2
      · simp at hcs
    · exact ih n h
  | case8 prev l ls hnb hu hd hb he hlit ih =>
    intro n hn
    rw [parseLoop] at hn
    simp only [if_neg hnb, hu, reduceDIte, hd, Bool.false_eq_true, if_false, hb, he,
      hlit] at hn
    rcases List.mem_cons.mp hn with h | h
    · subst h
      rw [parseParagraphS_node]
      refine ⟨fun h2 => ?_, fun cs hcs => ?_⟩
      · simp +decide at h2
      · simp at hcs
    · exact ih n h

/-- Every node `parseRST` produces is safe. -/
theorem parseRST_safe (content : Str) : ∀ n ∈ parseRST content, NodeSafe n := by
  intro n hn
  exact parseLoop_safe _ _ n hn

/-- When every node renders, the whole fold renders. -/
theorem convertGo_isSome (w : Int) :
    ∀ (ns : List RSTNode) (flag : Bool) (acc : Str) (warns : List Str),
      (∀ n ∈ ns, (convertNode n w).isSome) →
      (convertGo w ns flag acc warns).isSome := by
  intro ns
  induction ns with
  | nil => intro flag acc warns _; simp [convertGo_nil]
  | cons n rest ih =>
    intro flag acc warns h
    rw [convertGo_cons]
    split_ifs
    · exact ih true _ warns (fun x hx => h x (List.mem_cons_of_mem _ hx))
    · rcases Option.isSome_iff_exists.mp (h n (List.mem_cons_self _ _)) with ⟨r, hr⟩
      rw [hr]
      dsimp only
      exact ih flag _ _ (fun x hx => h x (List.mem_cons_of_mem _ hx))

/-- C3: for every input string and every wrap width, parsing returns a node
sequence and rendering it returns a string: the composed pipeline is total.
The parser is a total function by construction (its loops are well-founded),
and the renderer — whose only partial operation is the heading-level
`"#".repeat`, modelled by the `Option` in `convertNode` — is defined on every
node sequence the parser can produce, because parsed nodes satisfy
`NodeSafe`. -/
theorem claim_C3_total_pipeline (content : Str) (w : Int) :
    (convertToMDX (parseRST content) w).isSome := by
  unfold convertToMDX
  exact convertGo_isSome w _ false [] []
    (fun n hn => convertNode_isSome_of_safe n w (parseRST_safe content n hn))

/-- `takeWhile` passes over a block of satisfying characters. -/
theorem takeWhile_append_all {p : Char → Bool} :
    ∀ {l1 : Str}, (∀ a ∈ l1, p a = true) → ∀ l2 : Str,
      (l1 ++ l2).takeWhile p = l1 ++ l2.takeWhile p := by
  intro l1
  induction l1 with
  | nil => intro _ l2; simp
  | cons a t ih =>
    intro h l2
    simp only [List.cons_append, List.takeWhile_cons, h a (List.mem_cons_self _ _)]
    rw [ih (fun x hx => h x (List.mem_cons_of_mem _ hx)) l2]
    simp

/-- `dropWhile` passes over a block of satisfying characters. -/
theorem dropWhile_append_all {p : Char → Bool} :
    ∀ {l1 : Str}, (∀ a ∈ l1, p a = true) → ∀ l2 : Str,
      (l1 ++ l2).dropWhile p = l2.dropWhile p := by
  intro l1
  induction l1 with
  | nil => intro _ l2; simp
  | cons a t ih =>
    intro h l2
    simp only [List.cons_append, List.dropWhile_cons, h a (List.mem_cons_self _ _)]
    exact ih (fun x hx => h x (List.mem_cons_of_mem _ hx)) l2

/-- `trimL` is the identity on a string with a non-whitespace head. -/
theorem trimL_cons_nonws {c : Char} (hc : jsIsWs c = false) (t : Str) :
    trimL (c :: t) = c :: t := by
  unfold trimL
  rw [List.dropWhile_cons, if_neg (by simp [hc])]

/-- `trimR` is the identity on a string with a non-whitespace last character. -/
theorem trimR_concat_nonws {c : Char} (hc : jsIsWs c = false) (t : Str) :
    trimR (t ++ [c]) = t ++ [c] := by
  unfold trimR
  rw [show (t ++ [c]).reverse = c :: t.reverse by simp]
  rw [List.dropWhile_cons, if_neg (by simp [hc])]
  simp

/-- `dropWhile` is the identity when no character satisfies the predicate. -/
theorem dropWhile_of_all_false {p : Char → Bool} :
    ∀ {l : Str}, (∀ c ∈ l, p c = false) → l.dropWhile p = l := by
  intro l
  induction l with
  | nil => intro _; simp
  | cons a t ih =>
    intro h
    rw [List.dropWhile_cons, if_neg (by simp [h a (List.mem_cons_self _ _)])]

/-- `jsTrim` is the identity on whitespace-free text. -/
theorem jsTrim_of_all_nonws {l : Str} (h : ∀ c ∈ l, jsIsWs c = false) : jsTrim l = l := by
  unfold jsTrim trimL trimR
  rw [dropWhile_of_all_false h, dropWhile_of_all_false (fun c hc => h c (by simpa using hc))]
  exact l.reverse_reverse

/-- `jsTrim` is the identity when both edges are non-whitespace. -/
theorem jsTrim_edge_nonws {c c' : Char} (hc : jsIsWs c = false) (hc' : jsIsWs c' = false)
    (mid : Str) : jsTrim (c :: (mid ++ [c'])) = c :: (mid ++ [c']) := by
  unfold jsTrim
  rw [trimL_cons_nonws hc]
  rw [show c :: (mid ++ [c']) = (c :: mid) ++ [c'] by simp]
  rw [trimR_concat_nonws hc']

/-- The external-link matcher on a label `**m**`, one space, and an URL in
angle brackets with a trailing backtick-underscore: it captures the label and
URL intact and consumes the whole span. -/
theorem tryExt_of_shape (m u : Str)
    (hm : ∀ c ∈ m, extLabelOk c = true)
    (hu : ∀ c ∈ u, (!(c == '>')) = true ∧ jsIsWs c = false)
    (hune : u ≠ []) :
    tryExt ("**".data ++ m ++ "**".data ++ ' ' :: '<' :: (u ++ '>' :: bq :: ['_']))
      = some ("**".data ++ m ++ "**".data, u, (m.length + 5) + u.length + 4) := by
  have hL : ∀ a ∈ ("**".data ++ m ++ "**".data ++ [' '] : Str), extLabelOk a = true := by
    intro a ha
    by_cases ham : a ∈ m
    · exact hm a ham
    · have h2 : a = '*' ∨ a = ' ' := by
        simp at ha
        tauto
      rcases h2 with h | h <;> (subst h; decide)
  have hU : ∀ c ∈ u, (!(c == '>')) = true := fun c hc => (hu c hc).1
  have hshape : ("**".data ++ m ++ "**".data ++ ' ' :: '<' :: (u ++ '>' :: bq :: ['_']) : Str)
      = ("**".data ++ m ++ "**".data ++ [' ']) ++ '<' :: (u ++ '>' :: bq :: ['_']) := by
    simp
  have htk1 : List.takeWhile extLabelOk ('<' :: (u ++ '>' :: bq :: ['_'])) = [] := by
    rw [List.takeWhile_cons, if_neg (by decide)]
  have hdr1 : List.dropWhile extLabelOk ('<' :: (u ++ '>' :: bq :: ['_']))
      = '<' :: (u ++ '>' :: bq :: ['_']) := by
    rw [List.dropWhile_cons, if_neg (by decide)]
  have hlast : (("**".data ++ m ++ "**".data ++ [' '] : Str)).getLast? = some ' ' := by
    rw [show ("**".data ++ m ++ "**".data ++ [' '] : Str)
      = ("**".data ++ m ++ "**".data) ++ [' '] by simp]
    exact List.getLast?_concat _
  have hdl : (("**".data ++ m ++ "**".data ++ [' '] : Str)).dropLast
      = "**".data ++ m ++ "**".data := by
    rw [show ("**".data ++ m ++ "**".data ++ [' '] : Str)
      = ("**".data ++ m ++ "**".data) ++ [' '] by simp]
    exact List.dropLast_concat
  have htk2 : List.takeWhile (fun c => !(c == '>')) ('>' :: bq :: ['_'] : Str) = [] := by
    decide
  have hdr2 : List.dropWhile (fun c => !(c == '>')) ('>' :: bq :: ['_'] : Str)
      = '>' :: bq :: ['_'] := by decide
  have hlabel : jsTrim ("**".data ++ m ++ "**".data) = "**".data ++ m ++ "**".data := by
    rw [show ("**".data ++ m ++ "**".data : Str) = '*' :: (('*' :: m ++ ['*']) ++ ['*']) by simp]
    exact jsTrim_edge_nonws (by decide) (by decide) _
  have hurl : jsTrim u = u := jsTrim_of_all_nonws (fun c hc => (hu c hc).2)
  unfold tryExt
  rw [hshape]
  rw [takeWhile_append_all hL, dropWhile_append_all hL, htk1, hdr1]
  simp only [List.append_nil]
  try dsimp only
  try simp only [reduceIte]
  rw [hlast]
  try dsimp only
  rw [hdl]
  rw [if_pos (by simp [jsIsWs])]
  rw [takeWhile_append_all hU, dropWhile_append_all hU, htk2, hdr2]
  simp only [List.append_nil]
  try dsimp only
  try simp only [reduceIte]
  rw [if_neg (by simpa using hune)]
  try dsimp only
  try simp only [reduceIte]
  try dsimp only
  try simp only [reduceIte]
  rw [hlabel, hurl]
  simp [List.length_append]
  try omega

/-- Supporting positive result: an inline text consisting of a single
protected external-link span whose label carries strong-emphasis markup
(`**m**`) is rendered with the link target intact and the label untouched by
the emphasis and code substitution passes: the span is replaced by a
placeholder before those passes run and resolved only afterwards, so the
output is exactly `[**m**](u)`.  The protection mechanism therefore works
whenever the input does not itself collide with a placeholder token. -/
theorem extLink_bold_label_in_place (m u : Str)
    (hm : ∀ c ∈ m, extLabelOk c = true)
    (hu : ∀ c ∈ u, (!(c == '>')) = true ∧ jsIsWs c = false)
    (hune : u ≠ []) :
    processInlineMarkup
        (bq :: ("**".data ++ m ++ "**".data ++ ' ' :: '<' :: (u ++ '>' :: bq :: ['_'])))
      = "[**".data ++ m ++ "**](".data ++ u ++ ")".data := by
  have h1 : passExt
      (bq :: ("**".data ++ m ++ "**".data ++ ' ' :: '<' :: (u ++ '>' :: bq :: ['_']))) 0
      = (mkPlaceholder 0,
         [(mkPlaceholder 0,
           "[".data ++ ("**".data ++ m ++ "**".data) ++ "](".data ++ u ++ ")".data)], 1) := by
    rw [passExt]
    rw [if_pos (by simp)]
    rw [tryExt_of_shape m u hm hu hune]
    dsimp only
    rw [show ("**".data ++ m ++ "**".data ++ ' ' :: '<' :: (u ++ '>' :: bq :: ['_']) : Str).drop
        ((m.length + 5) + u.length + 4) = [] from by
      apply List.drop_eq_nil_of_le
      simp [List.length_append]
      try omega]
    rw [show passExt [] 1 = ([], [], 1) from by simp [passExt]]
    simp
  unfold processInlineMarkup
  rw [h1]
  dsimp only
  rw [show mkPlaceholder 0 = "__LINK_0__".data from by decide]
  simp +decide [passRef, tryRef, passStrong, tryStrong, passEm, tryEm, passDouble, tryDouble,
    passCode, tryCode, passRoles, tryRole, roleChar, replaceFirst, List.foldl]

/-- Concrete instance of the supporting result: the protected span with a bold
label keeps its target and label through the whole inline pipeline. -/
theorem extLink_bold_label_in_place_example :
    processInlineMarkup
        (bq :: ("**".data ++ "bold".data ++ "**".data ++ ' ' :: '<' ::
          ("http://x".data ++ '>' :: bq :: ['_'])))
      = "[**".data ++ "bold".data ++ "**](".data ++ "http://x".data ++ ")".data :=
  extLink_bold_label_in_place "bold".data "http://x".data
    (by decide) (by decide) (by decide)

/-- C8: refuted — placeholder resolution collides with user text.  The claim
says that for every inline text containing a protected link span whose label
carries emphasis or inline-code markup, the output keeps the link target
intact and the protected span unaffected, because the span is replaced by a
placeholder token (`__LINK_n__`) before the emphasis and code passes and
resolved only after them.  The resolution step, however, replaces the FIRST
occurrence of the placeholder text in the processed string, so an input that
already contains the literal token `__LINK_0__` ahead of a protected span
whose label carries `**b**` emphasis collides with that span's placeholder:
on the input `__LINK_0__ \x60**b** <u>\x60_` the link is substituted into the
position of the user's literal text and the protected span itself is emitted
as the raw placeholder token — the output is `[**b**](u) __LINK_0__`, not
the claimed rendering `__LINK_0__ [**b**](u)` with the span resolved in
place. -/
theorem claim_C8_placeholder_collision :
    processInlineMarkup ("__LINK_0__ ".data ++ bq :: ("**b** <u>".data ++ bq :: ['_']))
      = "[**b**](u) __LINK_0__".data
    ∧ processInlineMarkup ("__LINK_0__ ".data ++ bq :: ("**b** <u>".data ++ bq :: ['_']))
      ≠ "__LINK_0__ [**b**](u)".data := by
  have h : processInlineMarkup ("__LINK_0__ ".data ++ bq :: ("**b** <u>".data ++ bq :: ['_']))
      = "[**b**](u) __LINK_0__".data := by
    simp +decide [show Nat.repr 0 = "0" from by decide,
      processInlineMarkup, passExt, tryExt, passRef, tryRef, passStrong, tryStrong,
      passEm, tryEm, passDouble, tryDouble, passCode, tryCode, passRoles, tryRole, roleChar,
      replaceFirst, List.foldl, mkPlaceholder, jsTrim, trimL, trimR, jsIsWs, extLabelOk]
  exact ⟨h, by rw [h]; decide⟩
